import Mathlib

/-!
Verification of the markdown-viewer server (`main.go`) against its design
specification. The Go code is shallowly embedded: strings are Lean strings
(Go operates on UTF-8 bytes; for every path and query appearing here the
byte-level and character-level views coincide), the filesystem is an explicit
value passed to each operation, and the host platform is Unix, so
`filepath.Separator` is `/`, and `filepath.FromSlash` / `filepath.ToSlash`
are the identity.
-/

/-! ### Character and string helpers (models of Go `strings` functions) -/

/-- Model of the whitespace class used by Go `strings.TrimSpace`
(`unicode.IsSpace`): ASCII spacing characters plus NEL and NBSP.  The
remaining Unicode space runes never occur in paths considered here. -/
def goIsSpace (c : Char) : Bool :=
  c = ' ' || c = '\t' || c = '\n' || c = Char.ofNat 11 || c = Char.ofNat 12 ||
    c = '\r' || c = Char.ofNat 0x85 || c = Char.ofNat 0xA0

/-- Model of Go `strings.TrimSpace`: drop leading and trailing whitespace. -/
def goTrimSpace (s : String) : String :=
  String.mk (((s.data.dropWhile goIsSpace).reverse.dropWhile goIsSpace).reverse)

/-- Prefix test on character lists, model of the byte comparison done by
Go `strings.HasPrefix` (for valid UTF-8 the byte and character views agree). -/
def chPrefix : List Char → List Char → Bool
  | [], _ => true
  | _ :: _, [] => false
  | a :: as, b :: bs => a = b && chPrefix as bs

/-- Model of Go `strings.HasPrefix s pre`. -/
def goStartsWith (s pre : String) : Bool :=
  chPrefix pre.data s.data

/-- Model of Go `filepath.IsAbs` on Unix: the path begins with a slash. -/
def goIsAbs (path : String) : Bool :=
  goStartsWith path "/"

/-- Model of Go `strings.ToLower` (character-wise; ASCII case mapping,
which is all the tags, extensions and queries of this program use). -/
def goToLower (s : String) : String :=
  String.mk (s.data.map Char.toLower)

/-- Split a character list at every slash, keeping empty chunks, with an
accumulator holding the current chunk reversed. Model of
Go `strings.Split s "/"`. -/
def splitSlashAux : List Char → List Char → List String
  | cur, [] => [String.mk cur.reverse]
  | cur, c :: rest =>
    if c = '/' then String.mk cur.reverse :: splitSlashAux [] rest
    else splitSlashAux (c :: cur) rest

/-- Model of Go `strings.Split s "/"`. -/
def splitSlash (s : String) : List String :=
  splitSlashAux [] s.data

/-- Join path elements with slashes, model of Go `strings.Join elems "/"`. -/
def joinSegs : List String → String
  | [] => ""
  | [s] => s
  | s :: rest => s ++ "/" ++ joinSegs rest

/-! ### Model of Go `path/filepath.Clean` (Unix)

`Clean` is implemented in Go with a byte scanner; its meaning is the
classical stack algorithm over slash-separated segments: empty and `.`
segments are dropped, `..` pops a previous real segment, is dropped at the
root of an absolute path, and is kept at the front of a relative path. -/

/-- One step of the `Clean` segment stack. `rooted` records whether the
input path was absolute. -/
def cleanStep (rooted : Bool) (stack : List String) (seg : String) : List String :=
  if seg = "" ∨ seg = "." then stack
  else if seg = ".." then
    if stack ≠ [] ∧ stack.getLast? ≠ some ".." then stack.dropLast
    else if rooted then stack
    else stack ++ [".."]
  else stack ++ [seg]

/-- The surviving segments of `Clean`. -/
def cleanSegs (rooted : Bool) (segs : List String) : List String :=
  segs.foldl (cleanStep rooted) []

/-- Model of Go `filepath.Clean` on Unix. -/
def goClean (path : String) : String :=
  if path = "" then "."
  else
    let rooted := goIsAbs path
    let segs := cleanSegs rooted (splitSlash path)
    let out := joinSegs segs
    if rooted then
      if out = "" then "/" else "/" ++ out
    else
      if out = "" then "." else out

/-! ### Models of Go `filepath.Join`, `Abs`, `Rel`, `Ext`, `Base`, `Dir` -/

deriving instance DecidableEq for Except

/-- Model of Go `filepath.Join`: drop empty elements, join the rest with
slashes, and `Clean` the result; all elements empty gives the empty string. -/
def goJoinList (elems : List String) : String :=
  let ne := elems.filter (fun e => e ≠ "")
  if ne = [] then "" else goClean (joinSegs ne)

/-- Two-argument Go `filepath.Join`. -/
def goJoin (a b : String) : String :=
  goJoinList [a, b]

/-- Model of Go `filepath.Abs`. Go reads the working directory from the
process; here it is the explicit parameter `cwd`. -/
def goAbs (cwd path : String) : String :=
  if goIsAbs path then goClean path else goJoin cwd path

/-- The raw slash-separated components that Go's byte scanner in
`filepath.Rel` walks over for a `Clean`ed path. The cleaned path `/` has the
single empty component, and the empty string (a `.` base) has none. -/
def rawSegs (s : String) : List String :=
  if s = "" then [] else if s = "/" then [""] else splitSlash s

/-- Drop the longest common prefix of two component lists, returning both
remainders: the position at which Go's `Rel` element loop stops. -/
def dropCommon : List String → List String → List String × List String
  | b :: bs, t :: ts => if b = t then dropCommon bs ts else (b :: bs, t :: ts)
  | bs, ts => (bs, ts)

/-- Model of Go `filepath.Rel` on Unix. Both paths are cleaned; a `.` base
becomes empty; the paths must agree on absoluteness; every base component
past the common prefix becomes `..` and the target remainder is appended.
A first differing base component of `..` is an error. -/
def goRel (basepath targpath : String) : Except String String :=
  let base := goClean basepath
  let targ := goClean targpath
  if targ = base then .ok "."
  else
    let base := if base = "." then "" else base
    if goIsAbs base ≠ goIsAbs targ then
      .error ("Rel: cannot make " ++ targpath ++ " relative to " ++ basepath)
    else
      let p := dropCommon (rawSegs base) (rawSegs targ)
      if p.1.head? = some ".." then
        .error ("Rel: cannot make " ++ targpath ++ " relative to " ++ basepath)
      else
        .ok (joinSegs (p.1.map (fun _ => "..") ++ p.2))

/-- Scan of Go `filepath.Ext` over the reversed character list: walking
backwards from the end of the path, a separator (or the start) means no
extension, and the final dot starts the extension. `sofar` holds the
characters already passed, in forward order. -/
def goExtAux : List Char → List Char → List Char
  | _, [] => []
  | sofar, c :: rest =>
    if c = '/' then []
    else if c = '.' then c :: sofar
    else goExtAux (c :: sofar) rest

/-- Model of Go `filepath.Ext`: the suffix starting at the final dot in the
final slash-separated element, empty if that element has no dot. -/
def goExt (s : String) : String :=
  String.mk (goExtAux [] s.data.reverse)

/-- Model of Go `filepath.Base` on Unix: strip trailing slashes and keep the
part after the last remaining slash; empty input gives `.`, all slashes give
`/`. -/
def goBase (p : String) : String :=
  if p = "" then "."
  else
    let cs := (p.data.reverse.dropWhile (fun c => c = '/')).reverse
    if cs = [] then "/"
    else String.mk ((cs.reverse.takeWhile (fun c => !(c = '/'))).reverse)

/-- Model of Go `filepath.Dir` on Unix: everything up to and including the
final slash, cleaned (`Clean ""` giving `.` when there is no slash). -/
def goDir (p : String) : String :=
  goClean (String.mk ((p.data.reverse.dropWhile (fun c => !(c = '/'))).reverse))

/-! ### The source's path helpers: `isMarkdownFile`, `sanitizeRelativePath`,
`secureJoin` -/

/-- Embedding of `isMarkdownFile` from main.go. -/
def isMarkdownFile (path : String) : Bool :=
  let ext := goToLower (goExt path)
  ext = ".md" || ext = ".markdown"

/-- Embedding of `sanitizeRelativePath` from main.go (on Unix
`filepath.FromSlash` and `filepath.ToSlash` are the identity). -/
def sanitizeRelativePath (path : String) : Except String String :=
  let cl := goTrimSpace path
  if cl = "" then .error "path is required"
  else
    let cl := goClean cl
    if cl = "." ∨ cl = ".." ∨ goStartsWith cl "../" = true ∨ goIsAbs cl = true then
      .error "invalid path"
    else .ok cl

/-- Embedding of `secureJoin` from main.go. `cwd` is the process working
directory consulted by `filepath.Abs`. -/
def secureJoin (cwd root rel : String) : Except String String :=
  let joined := goJoin root rel
  let absRoot := goAbs cwd root
  let absJoined := goAbs cwd joined
  match goRel absRoot absJoined with
  | .error e => .error e
  | .ok relCheck =>
    if relCheck = ".." ∨ goStartsWith relCheck "../" = true then
      .error "path escapes root"
    else .ok absJoined

/-- The composite used by every handler: sanitize the user path, then join
it securely under the root. -/
def sanitizeThenSecureJoin (cwd root p : String) : Except String String :=
  match sanitizeRelativePath p with
  | .error e => .error e
  | .ok rel => secureJoin cwd root rel

/-! ### Segment lemmas: splitting, joining and cleaning -/

/-- A plain path segment: the kind of component a real file or directory
name is — nonempty, not a dot segment, and containing no separator. -/
def plainSeg (s : String) : Prop :=
  s ≠ "" ∧ s ≠ "." ∧ s ≠ ".." ∧ '/' ∉ s.data

instance (s : String) : Decidable (plainSeg s) := by
  unfold plainSeg; infer_instance

theorem chPrefix_nil (l : List Char) : chPrefix [] l = true := rfl

theorem chPrefix_cons_nil (a : Char) (as : List Char) : chPrefix (a :: as) [] = false := rfl

theorem chPrefix_cons_cons (a b : Char) (as bs : List Char) :
    chPrefix (a :: as) (b :: bs) = (decide (a = b) && chPrefix as bs) := rfl

theorem data_mk (l : List Char) : (String.mk l).data = l := rfl

theorem mk_data (s : String) : String.mk s.data = s := by cases s; rfl

theorem goIsAbs_of_head (s : String) (t : List Char) (h : s.data = '/' :: t) :
    goIsAbs s = true := by
  simp only [goIsAbs, goStartsWith, h]
  simp [chPrefix_cons_cons, chPrefix_nil]

theorem goIsAbs_data (s : String) (h : goIsAbs s = true) :
    ∃ t, s.data = '/' :: t := by
  unfold goIsAbs goStartsWith at h
  match hd : s.data with
  | [] => rw [hd] at h; simp [chPrefix] at h
  | c :: cs =>
    rw [hd] at h
    have : ('/' : Char) = c := by
      by_contra hne
      simp [chPrefix_cons_cons, hne] at h
    exact ⟨cs, by rw [← this]⟩

theorem ne_empty_of_data (s : String) (c : Char) (t : List Char)
    (h : s.data = c :: t) : s ≠ "" := by
  intro he; rw [he] at h; exact absurd h (by simp [show ("" : String).data = [] from rfl])

theorem goIsAbs_append (a b : String) (ha : a ≠ "") :
    goIsAbs (a ++ b) = goIsAbs a := by
  unfold goIsAbs goStartsWith
  rw [String.data_append]
  match hd : a.data with
  | [] => exact absurd (by cases a with | mk d => simp_all [String.ext_iff]) ha
  | c :: cs => simp [chPrefix_cons_cons, chPrefix_nil]

/-- Splitting past an accumulated slash-free chunk. -/
theorem splitSlashAux_append (xs : List Char) :
    ∀ (cur ys : List Char),
      splitSlashAux cur (xs ++ '/' :: ys) = splitSlashAux cur xs ++ splitSlashAux [] ys := by
  induction xs with
  | nil => intro cur ys; simp [splitSlashAux]
  | cons c xs ih =>
    intro cur ys
    by_cases hc : c = '/' <;> simp [splitSlashAux, hc, ih]

theorem splitSlashAux_noSlash (cs : List Char) :
    ∀ cur : List Char, '/' ∉ cs → splitSlashAux cur cs = [String.mk (cur.reverse ++ cs)] := by
  induction cs with
  | nil => intro cur _; simp [splitSlashAux]
  | cons c cs ih =>
    intro cur h
    have hc : ¬ c = '/' := fun he => h (by simp [he])
    have hcs : '/' ∉ cs := fun hm => h (by simp [hm])
    simp [splitSlashAux, hc, ih (c :: cur) hcs]

theorem splitSlash_noSlash (s : String) (h : '/' ∉ s.data) : splitSlash s = [s] := by
  unfold splitSlash
  rw [splitSlashAux_noSlash s.data [] h]
  simp [mk_data]

theorem splitSlash_append (a b : String) :
    splitSlash (a ++ "/" ++ b) = splitSlash a ++ splitSlash b := by
  unfold splitSlash
  have : (a ++ "/" ++ b).data = a.data ++ '/' :: b.data := by
    rw [String.data_append, String.data_append]
    simp [show ("/" : String).data = ['/'] from rfl]
  rw [this, splitSlashAux_append]

theorem mem_splitSlashAux_noSlash (cs : List Char) :
    ∀ (cur : List Char) (x : String), '/' ∉ cur → x ∈ splitSlashAux cur cs → '/' ∉ x.data := by
  induction cs with
  | nil =>
    intro cur x hcur hx
    simp [splitSlashAux] at hx
    subst hx
    simp [data_mk]
    intro hm
    exact hcur hm
  | cons c cs ih =>
    intro cur x hcur hx
    by_cases hc : c = '/'
    · simp [splitSlashAux, hc] at hx
      rcases hx with hx | hx
      · subst hx
        simp [data_mk]
        intro hm
        exact hcur hm
      · exact ih [] x (by simp) hx
    · simp [splitSlashAux, hc] at hx
      exact ih (c :: cur) x (by simp [hcur, hc]; exact fun he => hc he.symm) hx

theorem mem_splitSlash_noSlash (s x : String) (hx : x ∈ splitSlash s) : '/' ∉ x.data :=
  mem_splitSlashAux_noSlash s.data [] x (by simp) hx

theorem joinSegs_cons_ne (s : String) (rest : List String) (hrest : rest ≠ []) :
    joinSegs (s :: rest) = s ++ "/" ++ joinSegs rest := by
  match rest with
  | [] => exact absurd rfl hrest
  | r :: t => rfl

theorem joinSegs_data_cons (s : String) (rest : List String) (hrest : rest ≠ []) :
    (joinSegs (s :: rest)).data = s.data ++ '/' :: (joinSegs rest).data := by
  rw [joinSegs_cons_ne s rest hrest, String.data_append, String.data_append]
  simp [show ("/" : String).data = ['/'] from rfl]

theorem joinSegs_ne_empty (s : String) (rest : List String) (hs : s ≠ "") :
    joinSegs (s :: rest) ≠ "" := by
  match rest with
  | [] => exact hs
  | r :: t =>
    intro he
    have hd : (joinSegs (s :: r :: t)).data = [] := by rw [he]
    rw [joinSegs_data_cons s (r :: t) (by simp)] at hd
    exact absurd hd (by simp)

theorem joinSegs_append_single (ss : List String) (x : String) (h : ss ≠ []) :
    joinSegs (ss ++ [x]) = joinSegs ss ++ "/" ++ x := by
  induction ss with
  | nil => exact absurd rfl h
  | cons s rest ih =>
    match rest with
    | [] => rfl
    | r :: t =>
      have h1 : (r :: t) ++ [x] ≠ [] := by simp
      rw [List.cons_append, joinSegs_cons_ne s ((r :: t) ++ [x]) h1,
        joinSegs_cons_ne s (r :: t) (by simp), ih (by simp)]
      simp [String.append_assoc]

theorem splitSlash_joinSegs (ss : List String) (hne : ss ≠ [])
    (hns : ∀ x ∈ ss, '/' ∉ x.data) : splitSlash (joinSegs ss) = ss := by
  induction ss with
  | nil => exact absurd rfl hne
  | cons s rest ih =>
    match rest with
    | [] =>
      exact splitSlash_noSlash s (hns s (by simp))
    | r :: t =>
      have hrec : ∀ x ∈ r :: t, '/' ∉ x.data := fun x hx => hns x (by simp [hx])
      rw [joinSegs_cons_ne s (r :: t) (by simp), splitSlash_append,
        splitSlash_noSlash s (hns s (by simp)), ih (by simp) hrec]
      rfl

/-! Fold invariants of the `Clean` segment stack. -/

theorem cleanStep_plain (r : Bool) (st : List String) (s : String)
    (h1 : s ≠ "") (h2 : s ≠ ".") (h3 : s ≠ "..") :
    cleanStep r st s = st ++ [s] := by
  simp [cleanStep, h1, h2, h3]

theorem cleanSegs_plain_fold (r : Bool) (l : List String)
    (h : ∀ x ∈ l, x ≠ "" ∧ x ≠ "." ∧ x ≠ "..") :
    ∀ st : List String, l.foldl (cleanStep r) st = st ++ l := by
  induction l with
  | nil => intro st; simp
  | cons s rest ih =>
    intro st
    obtain ⟨h1, h2, h3⟩ := h s (by simp)
    rw [List.foldl_cons, cleanStep_plain r st s h1 h2 h3,
      ih (fun x hx => h x (by simp [hx]))]
    simp

theorem mem_cleanStep (r : Bool) (st : List String) (s x : String)
    (hx : x ∈ cleanStep r st s) : x ∈ st ∨ x = s := by
  unfold cleanStep at hx
  split at hx
  · exact Or.inl hx
  · split at hx
    · split at hx
      · exact Or.inl (List.dropLast_subset st hx)
      · split at hx
        · exact Or.inl hx
        · rcases List.mem_append.mp hx with h | h
          · exact Or.inl h
          · rename_i hdd _ _
            simp at h
            subst h
            exact Or.inr hdd.symm
    · rcases List.mem_append.mp hx with h | h
      · exact Or.inl h
      · simp at h; subst h; exact Or.inr rfl

theorem mem_cleanSegs_fold (r : Bool) (l : List String) :
    ∀ (st : List String) (x : String), x ∈ l.foldl (cleanStep r) st → x ∈ st ∨ x ∈ l := by
  induction l with
  | nil => intro st x hx; exact Or.inl hx
  | cons s rest ih =>
    intro st x hx
    rcases ih (cleanStep r st s) x hx with h | h
    · rcases mem_cleanStep r st s x h with h | h
      · exact Or.inl h
      · exact Or.inr (by simp [h])
    · exact Or.inr (by simp [h])

theorem cleanStep_no_empty_dot (r : Bool) (st : List String) (s : String)
    (hst : ∀ x ∈ st, x ≠ "" ∧ x ≠ ".") :
    ∀ x ∈ cleanStep r st s, x ≠ "" ∧ x ≠ "." := by
  intro x hx
  unfold cleanStep at hx
  split at hx
  · exact hst x hx
  · rename_i hns
    split at hx
    · split at hx
      · exact hst x (List.dropLast_subset st hx)
      · split at hx
        · exact hst x hx
        · rcases List.mem_append.mp hx with h | h
          · exact hst x h
          · simp at h; subst h; exact ⟨by simp, by simp⟩
    · rcases List.mem_append.mp hx with h | h
      · exact hst x h
      · simp at h; subst h
        exact ⟨fun he => hns (Or.inl he), fun he => hns (Or.inr he)⟩

theorem cleanSegs_no_empty_dot (r : Bool) (l : List String) :
    ∀ st : List String, (∀ x ∈ st, x ≠ "" ∧ x ≠ ".") →
      ∀ x ∈ l.foldl (cleanStep r) st, x ≠ "" ∧ x ≠ "." := by
  induction l with
  | nil => intro st hst; exact hst
  | cons s rest ih =>
    intro st hst
    exact ih (cleanStep r st s) (cleanStep_no_empty_dot r st s hst)

theorem cleanStep_rooted_no_dotdot (st : List String) (s : String)
    (hst : ".." ∉ st) : ".." ∉ cleanStep true st s := by
  intro hx
  unfold cleanStep at hx
  split at hx
  · exact hst hx
  · split at hx
    · split at hx
      · exact hst (List.dropLast_subset st hx)
      · split at hx
        · exact hst hx
        · rename_i hr; exact absurd rfl hr
    · rename_i hs
      rcases List.mem_append.mp hx with h | h
      · exact hst h
      · simp at h; exact hs h.symm

theorem cleanSegs_rooted_no_dotdot (l : List String) :
    ∀ st : List String, ".." ∉ st → ".." ∉ l.foldl (cleanStep true) st := by
  induction l with
  | nil => intro st hst; exact hst
  | cons s rest ih =>
    intro st hst
    exact ih (cleanStep true st s) (cleanStep_rooted_no_dotdot st s hst)

/-- The dotdot-prefix shape of a relative `Clean` stack: some leading `..`
segments followed by segments that are not `..`. -/
def dotPrefixShape (st : List String) : Prop :=
  ∃ k rest, st = List.replicate k ".." ++ rest ∧ ".." ∉ rest

theorem getLast?_replicate_pos (k : Nat) (s : String) (hk : 0 < k) :
    (List.replicate k s).getLast? = some s := by
  induction k with
  | zero => omega
  | succ n ih =>
    rw [List.replicate_succ' n s]
    rcases Nat.eq_zero_or_pos n with h | h
    · subst h; rfl
    · rw [List.getLast?_append_of_ne_nil (List.replicate n s) (by simp)]
      rfl

theorem cleanStep_dotPrefixShape (st : List String) (s : String)
    (hst : dotPrefixShape st) : dotPrefixShape (cleanStep false st s) := by
  obtain ⟨k, rest, hshape, hrest⟩ := hst
  unfold cleanStep
  split
  · exact ⟨k, rest, hshape, hrest⟩
  · split
    · split
      · rename_i hcond
        obtain ⟨hne, hlast⟩ := hcond
        have hrne : rest ≠ [] := by
          intro he
          subst he
          rw [List.append_nil] at hshape
          subst hshape
          have hkpos : 0 < k := by
            rcases Nat.eq_zero_or_pos k with h | h
            · subst h; simp at hne
            · exact h
          exact hlast (getLast?_replicate_pos k ".." hkpos)
        refine ⟨k, rest.dropLast, ?_, fun hm => hrest (List.dropLast_subset rest hm)⟩
        rw [hshape, List.dropLast_append_of_ne_nil (List.replicate k "..") hrne]
      · split
        · exact ⟨k, rest, hshape, hrest⟩
        · rename_i hcond _
          have hre : rest = [] := by
            by_contra hne
            apply hcond
            constructor
            · rw [hshape]; simp [hne]
            · rw [hshape, List.getLast?_append_of_ne_nil (List.replicate k "..") hne]
              intro hlast
              exact hrest (by
                rcases List.getLast?_eq_some_iff.mp hlast with ⟨ys, hys⟩
                rw [hys]; simp)
          subst hre
          rw [List.append_nil] at hshape
          subst hshape
          exact ⟨k + 1, [], by rw [List.replicate_succ' k ".."]; simp, by simp⟩
    · rename_i hns hnd
      exact ⟨k, rest ++ [s], by rw [hshape, List.append_assoc], by
        intro hm
        rcases List.mem_append.mp hm with h | h
        · exact hrest h
        · simp at h; exact hnd h.symm⟩

theorem cleanSegs_dotPrefixShape (l : List String) :
    ∀ st : List String, dotPrefixShape st → dotPrefixShape (l.foldl (cleanStep false) st) := by
  induction l with
  | nil => intro st hst; exact hst
  | cons s rest ih =>
    intro st hst
    exact ih (cleanStep false st s) (cleanStep_dotPrefixShape st s hst)

/-! ### Canonical absolute paths -/

/-- The cleaned segment stack of an absolute path. -/
def cleanAbs (root : String) : List String :=
  cleanSegs true (splitSlash root)

/-- The canonical form of an absolute path with the given plain segments. -/
def mkAbs (ss : List String) : String :=
  if ss = [] then "/" else "/" ++ joinSegs ss

theorem goIsAbs_mkAbs (ss : List String) : goIsAbs (mkAbs ss) = true := by
  unfold mkAbs
  split
  · decide
  · exact goIsAbs_of_head _ (joinSegs ss).data (by rw [String.data_append]; rfl)

theorem mkAbs_ne_empty (ss : List String) : mkAbs ss ≠ "" := by
  intro h
  have := goIsAbs_mkAbs ss
  rw [h] at this
  exact absurd this (by decide)

theorem plainSegs_cleanAbs (root : String) :
    ∀ x ∈ cleanAbs root, plainSeg x := by
  intro x hx
  have hmem : x ∈ splitSlash root := by
    rcases mem_cleanSegs_fold true (splitSlash root) [] x hx with h | h
    · simp at h
    · exact h
  have hne := cleanSegs_no_empty_dot true (splitSlash root) [] (by simp) x hx
  have hnd : x ≠ ".." := fun he => cleanSegs_rooted_no_dotdot (splitSlash root) [] (by simp) (he ▸ hx)
  exact ⟨hne.1, hne.2, hnd, mem_splitSlash_noSlash root x hmem⟩

theorem cleanSegs_cons_empty (r : Bool) (l : List String) :
    cleanSegs r ("" :: l) = cleanSegs r l := by
  unfold cleanSegs
  rw [List.foldl_cons]
  have : cleanStep r [] "" = [] := by unfold cleanStep; simp
  rw [this]

theorem goClean_abs (root : String) (h : goIsAbs root = true) :
    goClean root = mkAbs (cleanAbs root) := by
  obtain ⟨t, ht⟩ := goIsAbs_data root h
  unfold goClean
  rw [if_neg (ne_empty_of_data root '/' t ht), h]
  simp only [if_true]
  unfold mkAbs
  simp only [show cleanSegs true (splitSlash root) = cleanAbs root from rfl]
  match hc : cleanAbs root with
  | [] => simp [joinSegs]
  | s :: rest =>
    have hp := plainSegs_cleanAbs root s (by rw [hc]; simp)
    rw [if_neg (joinSegs_ne_empty s rest hp.1), if_neg (by simp)]

theorem splitSlash_mkAbs (ss : List String) (hp : ∀ x ∈ ss, plainSeg x) (hne : ss ≠ []) :
    splitSlash (mkAbs ss) = "" :: ss := by
  unfold mkAbs
  rw [if_neg hne]
  match hs : ss with
  | s :: rest =>
    have hd : ("/" ++ joinSegs (s :: rest)).data = '/' :: (joinSegs (s :: rest)).data := by
      rw [String.data_append]; rfl
    unfold splitSlash
    rw [hd]
    show String.mk [] :: splitSlashAux [] (joinSegs (s :: rest)).data = "" :: s :: rest
    rw [show splitSlashAux [] (joinSegs (s :: rest)).data = splitSlash (joinSegs (s :: rest)) from rfl]
    rw [splitSlash_joinSegs (s :: rest) (by simp) (fun x hx => (hp x hx).2.2.2)]

theorem cleanSegs_append_plain (r : Bool) (l : List String) (ss : List String)
    (hp : ∀ x ∈ ss, plainSeg x) :
    cleanSegs r (l ++ ss) = cleanSegs r l ++ ss := by
  unfold cleanSegs
  rw [List.foldl_append]
  exact cleanSegs_plain_fold r ss (fun x hx => ⟨(hp x hx).1, (hp x hx).2.1, (hp x hx).2.2.1⟩) _

theorem cleanAbs_mkAbs (ss : List String) (hp : ∀ x ∈ ss, plainSeg x) :
    cleanAbs (mkAbs ss) = ss := by
  match hs : ss with
  | [] =>
    show cleanSegs true (splitSlash "/") = []
    decide
  | s :: rest =>
    unfold cleanAbs
    rw [splitSlash_mkAbs (s :: rest) hp (by simp), cleanSegs_cons_empty]
    have : cleanSegs true ([] ++ (s :: rest)) = cleanSegs true [] ++ (s :: rest) :=
      cleanSegs_append_plain true [] (s :: rest) hp
    simpa using this

theorem goClean_mkAbs (ss : List String) (hp : ∀ x ∈ ss, plainSeg x) :
    goClean (mkAbs ss) = mkAbs ss := by
  rw [goClean_abs (mkAbs ss) (goIsAbs_mkAbs ss), cleanAbs_mkAbs ss hp]

theorem mkAbs_injective (a b : List String) (hpa : ∀ x ∈ a, plainSeg x)
    (hpb : ∀ x ∈ b, plainSeg x) (h : mkAbs a = mkAbs b) : a = b := by
  rw [← cleanAbs_mkAbs a hpa, ← cleanAbs_mkAbs b hpb, h]

theorem goJoin_abs_plain (root x : String) (hroot : goIsAbs root = true)
    (hx : plainSeg x) : goJoin root x = mkAbs (cleanAbs root ++ [x]) := by
  obtain ⟨t, ht⟩ := goIsAbs_data root hroot
  have hrne : root ≠ "" := ne_empty_of_data root '/' t ht
  unfold goJoin goJoinList
  rw [if_neg ?hne]
  case hne =>
    simp [hrne, hx.1]
  have hfil : [root, x].filter (fun e => e ≠ "") = [root, x] := by
    simp [hrne, hx.1]
  rw [hfil]
  have hjoined : joinSegs [root, x] = root ++ "/" ++ x := rfl
  rw [hjoined]
  rw [goClean_abs (root ++ "/" ++ x) ?habs2]
  case habs2 =>
    rw [show root ++ "/" ++ x = root ++ ("/" ++ x) by rw [String.append_assoc]]
    rw [goIsAbs_append root ("/" ++ x) hrne]
    exact hroot
  unfold cleanAbs
  rw [splitSlash_append, splitSlash_noSlash x hx.2.2.2,
    cleanSegs_append_plain true (splitSlash root) [x] (by intro y hy; simp at hy; subst hy; exact hx)]

theorem rawSegs_mkAbs (ss : List String) (hp : ∀ x ∈ ss, plainSeg x) :
    rawSegs (mkAbs ss) = "" :: ss := by
  match hs : ss with
  | [] => decide
  | s :: rest =>
    unfold rawSegs
    rw [if_neg (mkAbs_ne_empty (s :: rest)), if_neg ?hslash]
    case hslash =>
      intro heq
      have : splitSlash (mkAbs (s :: rest)) = splitSlash "/" := by rw [heq]
      rw [splitSlash_mkAbs (s :: rest) hp (by simp)] at this
      have hr : splitSlash "/" = ["", ""] := by decide
      rw [hr] at this
      have := List.tail_eq_of_cons_eq this
      have hp1 := hp s (by simp)
      simp at this
      exact hp1.1 this.1
    exact splitSlash_mkAbs (s :: rest) hp (by simp)

theorem dropCommon_self_append (l : List String) :
    ∀ ts : List String, dropCommon l (l ++ ts) = ([], ts) := by
  induction l with
  | nil =>
    intro ts
    match ts with
    | [] => rfl
    | t :: ts => rfl
  | cons a l ih =>
    intro ts
    show dropCommon (a :: l) (a :: (l ++ ts)) = ([], ts)
    unfold dropCommon
    rw [if_pos rfl]
    exact ih ts

theorem goRel_canon (root : String) (D : List String) (hroot : goIsAbs root = true)
    (hpD : ∀ x ∈ D, plainSeg x) (hne : D ≠ []) :
    goRel root (mkAbs (cleanAbs root ++ D)) = .ok (joinSegs D) := by
  have hpR := plainSegs_cleanAbs root
  have hpRD : ∀ x ∈ cleanAbs root ++ D, plainSeg x := by
    intro x hx
    rcases List.mem_append.mp hx with h | h
    · exact hpR x h
    · exact hpD x h
  unfold goRel
  rw [goClean_abs root hroot, goClean_mkAbs (cleanAbs root ++ D) hpRD]
  rw [if_neg ?hneq]
  case hneq =>
    intro heq
    have := mkAbs_injective (cleanAbs root ++ D) (cleanAbs root) hpRD hpR heq
    have hD : D = [] := by
      have h2 : cleanAbs root ++ D = cleanAbs root ++ [] := by simpa using this
      exact List.append_cancel_left h2
    exact hne hD
  rw [if_neg ?hdot]
  case hdot =>
    intro heq
    have h1 := goIsAbs_mkAbs (cleanAbs root)
    have h2 : mkAbs (cleanAbs root) ≠ "." := by
      intro he
      rw [he] at h1
      exact absurd h1 (by decide)
    rw [if_neg h2] at heq
    rw [goIsAbs_mkAbs (cleanAbs root ++ D), goIsAbs_mkAbs (cleanAbs root)] at heq
    exact heq rfl
  have h2 : mkAbs (cleanAbs root) ≠ "." := by
    intro he
    have h1 := goIsAbs_mkAbs (cleanAbs root)
    rw [he] at h1
    exact absurd h1 (by decide)
  rw [if_neg h2]
  rw [rawSegs_mkAbs (cleanAbs root) hpR, rawSegs_mkAbs (cleanAbs root ++ D) hpRD]
  rw [show ("" :: (cleanAbs root ++ D)) = ("" :: cleanAbs root) ++ D from by simp]
  rw [dropCommon_self_append ("" :: cleanAbs root) D]
  rw [if_neg (by simp)]
  simp

/-! ### Structure of cleaned relative paths and of sanitizer output -/

theorem goStartsWith_dotdot_cons (rest : List String) (h : rest ≠ []) :
    goStartsWith (joinSegs (".." :: rest)) "../" = true := by
  unfold goStartsWith
  rw [joinSegs_data_cons ".." rest h]
  show chPrefix ['.', '.', '/'] ('.' :: '.' :: '/' :: (joinSegs rest).data) = true
  simp [chPrefix_cons_cons, chPrefix_nil]

theorem goClean_unrooted_stack (t : String) (ht : t ≠ "") (habs : goIsAbs t = false) :
    (cleanSegs false (splitSlash t) = [] ∧ goClean t = ".") ∨
    (∃ s0 rest, cleanSegs false (splitSlash t) = s0 :: rest ∧
      goClean t = joinSegs (s0 :: rest) ∧
      (∀ x ∈ s0 :: rest, x ≠ "" ∧ x ≠ "." ∧ '/' ∉ x.data) ∧
      dotPrefixShape (s0 :: rest)) := by
  unfold goClean
  rw [if_neg ht, habs]
  simp only [if_false, Bool.false_eq_true]
  match hst : cleanSegs false (splitSlash t) with
  | [] => exact Or.inl ⟨rfl, by simp [joinSegs]⟩
  | s0 :: rest =>
    have hprops : ∀ x ∈ s0 :: rest, x ≠ "" ∧ x ≠ "." ∧ '/' ∉ x.data := by
      intro x hx
      rw [← hst] at hx
      have hne := cleanSegs_no_empty_dot false (splitSlash t) [] (by simp) x hx
      have hmem : x ∈ splitSlash t := by
        rcases mem_cleanSegs_fold false (splitSlash t) [] x hx with h | h
        · simp at h
        · exact h
      exact ⟨hne.1, hne.2, mem_splitSlash_noSlash t x hmem⟩
    have hdp : dotPrefixShape (s0 :: rest) := by
      rw [← hst]
      exact cleanSegs_dotPrefixShape (splitSlash t) [] ⟨0, [], by simp, by simp⟩
    have hs0 := hprops s0 (by simp)
    refine Or.inr ⟨s0, rest, rfl, ?_, hprops, hdp⟩
    rw [if_neg (joinSegs_ne_empty s0 rest hs0.1)]

/-- Structure of a successful sanitizer result: a nonempty sequence of plain
segments joined with slashes. -/
theorem sanitize_structure (q rel : String) (h : sanitizeRelativePath q = .ok rel) :
    ∃ ss, ss ≠ [] ∧ (∀ x ∈ ss, plainSeg x) ∧ rel = joinSegs ss ∧
      rel = goClean (goTrimSpace q) := by
  unfold sanitizeRelativePath at h
  by_cases hemp : goTrimSpace q = ""
  · rw [if_pos hemp] at h; exact absurd h (by simp)
  rw [if_neg hemp] at h
  by_cases hbad : goClean (goTrimSpace q) = "." ∨ goClean (goTrimSpace q) = ".." ∨
      goStartsWith (goClean (goTrimSpace q)) "../" = true ∨
      goIsAbs (goClean (goTrimSpace q)) = true
  · rw [if_pos hbad] at h; exact absurd h (by simp)
  rw [if_neg hbad] at h
  have hrel : rel = goClean (goTrimSpace q) := by
    cases h; rfl
  have hb1 : goClean (goTrimSpace q) ≠ "." := fun hc => hbad (Or.inl hc)
  have hb2 : goClean (goTrimSpace q) ≠ ".." := fun hc => hbad (Or.inr (Or.inl hc))
  have hb3 : goStartsWith (goClean (goTrimSpace q)) "../" ≠ true :=
    fun hc => hbad (Or.inr (Or.inr (Or.inl hc)))
  have hb4 : goIsAbs (goClean (goTrimSpace q)) ≠ true := fun hc => hbad (Or.inr (Or.inr (Or.inr hc)))
  have habs : goIsAbs (goTrimSpace q) = false := by
    by_contra hroot
    have hroot2 : goIsAbs (goTrimSpace q) = true := by
      cases hr : goIsAbs (goTrimSpace q)
      · exact absurd hr hroot
      · rfl
    rw [goClean_abs (goTrimSpace q) hroot2] at hb4
    exact hb4 (goIsAbs_mkAbs (cleanAbs (goTrimSpace q)))
  rcases goClean_unrooted_stack (goTrimSpace q) hemp habs with ⟨hst, hcl⟩ |
    ⟨s0, rest, hst, hcl, hprops, hdp⟩
  · exact absurd hcl hb1
  · have hs0ne : s0 ≠ ".." := by
      intro he
      subst he
      match rest, hcl with
      | [], hcl => exact hb2 hcl
      | r :: t2, hcl =>
        exact hb3 (hcl ▸ goStartsWith_dotdot_cons (r :: t2) (by simp))
    have hnodd : ".." ∉ s0 :: rest := by
      obtain ⟨k, rest2, hshape, hr2⟩ := hdp
      match k, hshape with
      | 0, hshape =>
        simp only [List.replicate_zero, List.nil_append] at hshape
        rw [hshape]
        exact hr2
      | n + 1, hshape =>
        rw [List.replicate_succ] at hshape
        exact absurd (List.head_eq_of_cons_eq hshape) hs0ne
    refine ⟨s0 :: rest, by simp, ?_, hrel ▸ hcl, hrel⟩
    intro x hx
    obtain ⟨p1, p2, p3⟩ := hprops x hx
    exact ⟨p1, p2, fun he => hnodd (he ▸ hx), p3⟩

theorem joinSegs_cons_props (s0 : String) (rest : List String)
    (h1 : s0 ≠ "") (h2 : s0 ≠ ".") (h3 : s0 ≠ "..") (h4 : '/' ∉ s0.data) :
    joinSegs (s0 :: rest) ≠ "." ∧ joinSegs (s0 :: rest) ≠ ".." ∧
      goStartsWith (joinSegs (s0 :: rest)) "../" = false ∧
      goIsAbs (joinSegs (s0 :: rest)) = false := by
  obtain ⟨t, hd, ht⟩ : ∃ t, (joinSegs (s0 :: rest)).data = s0.data ++ t ∧
      (t = [] ∨ ∃ u, t = '/' :: u) := by
    match rest with
    | [] => exact ⟨[], by simp [joinSegs], Or.inl rfl⟩
    | r :: t2 =>
      exact ⟨'/' :: (joinSegs (r :: t2)).data, joinSegs_data_cons s0 (r :: t2) (by simp),
        Or.inr ⟨_, rfl⟩⟩
  have hs1 : s0.data ≠ [] := fun he => h1 (String.ext_iff.mpr (by rw [he]))
  refine ⟨?_, ?_, ?_, ?_⟩
  · intro he
    have hde : s0.data ++ t = ['.'] := by rw [← hd, he]
    match hs0 : s0.data, hde with
    | [], hde => exact hs1 hs0
    | [c1], hde =>
      simp at hde
      obtain ⟨hc, hct⟩ := hde
      exact h2 (String.ext_iff.mpr (by rw [hs0, hc]))
    | c1 :: c2 :: r2, hde =>
      rw [List.cons_append, List.cons_append] at hde
      have := List.tail_eq_of_cons_eq hde
      exact absurd this (by simp)
  · intro he
    have hde : s0.data ++ t = ['.', '.'] := by rw [← hd, he]
    match hs0 : s0.data, hde with
    | [], hde => exact hs1 hs0
    | [c1], hde =>
      simp at hde
      obtain ⟨hc, hct⟩ := hde
      rcases ht with hte | ⟨u, hte⟩
      · rw [hte] at hct; exact absurd hct (by simp)
      · rw [hte] at hct
        have := List.head_eq_of_cons_eq hct
        exact absurd this (by decide)
    | [c1, c2], hde =>
      simp at hde
      obtain ⟨hc1, hc2, hct⟩ := hde
      exact h3 (String.ext_iff.mpr (by rw [hs0, hc1, hc2]))
    | c1 :: c2 :: c3 :: r2, hde =>
      rw [List.cons_append, List.cons_append, List.cons_append] at hde
      have h5 := List.tail_eq_of_cons_eq (List.tail_eq_of_cons_eq hde)
      exact absurd h5 (by simp)
  · show goStartsWith (joinSegs (s0 :: rest)) "../" = false
    unfold goStartsWith
    rw [hd, show ("../" : String).data = ['.', '.', '/'] from rfl]
    match hs0 : s0.data with
    | [] => exact absurd hs0 hs1
    | [c1] =>
      rcases ht with hte | ⟨u, hte⟩
      · subst hte
        simp [chPrefix_cons_cons, chPrefix_cons_nil]
      · subst hte
        by_cases hc1 : ('.' : Char) = c1
        · simp [chPrefix_cons_cons, ← hc1]
        · simp [chPrefix_cons_cons, hc1]
    | [c1, c2] =>
      by_cases hc1 : ('.' : Char) = c1
      · by_cases hc2 : ('.' : Char) = c2
        · exact absurd (String.ext_iff.mpr (by rw [hs0, ← hc1, ← hc2])) h3
        · simp [chPrefix_cons_cons, hc2]
      · simp [chPrefix_cons_cons, hc1]
    | c1 :: c2 :: c3 :: r2 =>
      by_cases hc3 : ('/' : Char) = c3
      · exact absurd (by rw [hs0, ← hc3]; simp) h4
      · simp only [List.cons_append, chPrefix_cons_cons]
        simp [hc3]
  · show goIsAbs (joinSegs (s0 :: rest)) = false
    unfold goIsAbs goStartsWith
    rw [hd, show ("/" : String).data = ['/'] from rfl]
    match hs0 : s0.data with
    | [] => exact absurd hs0 hs1
    | c1 :: r2 =>
      by_cases hc1 : ('/' : Char) = c1
      · exact absurd (by rw [hs0, ← hc1]; simp) h4
      · simp [chPrefix_cons_cons, hc1]

/-! ### Claims C1 and C2: the path sanitizer -/

/-- C1 counterexample. The input `../x` contains a `..` segment that
resolves outside the root `/data` — `secureJoin` applied directly to it
reports exactly the escape — yet the sanitize-then-secureJoin pipeline of
the handlers fails with the InvalidPath error `invalid path` from
`sanitizeRelativePath`, not with PathEscapesRoot. -/
theorem C1_counterexample :
    secureJoin "/" "/data" "../x" = .error "path escapes root" ∧
    sanitizeThenSecureJoin "/" "/data" "../x" = .error "invalid path" ∧
    sanitizeThenSecureJoin "/" "/data" "../x" ≠ .error "path escapes root" := by
  decide

/-- C1 (amended): for every user-supplied path whose trimmed, lexically
cleaned form still begins with a parent-traversal segment (the paths whose
`..` segments would resolve outside any root), applying
`sanitizeRelativePath` and then `secureJoin` fails, but the failure is the
InvalidPath error `invalid path` raised by the sanitizer; `secureJoin` is
never reached, so the failure is never PathEscapesRoot. -/
theorem C1_dotdot_pipeline_fails_invalid_path (cwd root p : String)
    (h : goClean (goTrimSpace p) = ".." ∨
      goStartsWith (goClean (goTrimSpace p)) "../" = true) :
    sanitizeThenSecureJoin cwd root p = .error "invalid path" := by
  unfold sanitizeThenSecureJoin sanitizeRelativePath
  by_cases hemp : goTrimSpace p = ""
  · rw [hemp] at h
    exact absurd h (by decide)
  · rw [if_neg hemp, if_pos ?hcond]
    case hcond =>
      rcases h with h | h
      · exact Or.inr (Or.inl h)
      · exact Or.inr (Or.inr (Or.inl h))

/-- C1 witness: the amended statement applied at the concrete escaping
input `../x`. -/
theorem C1_witness :
    (goClean (goTrimSpace "../x") = ".." ∨
      goStartsWith (goClean (goTrimSpace "../x")) "../" = true) ∧
    sanitizeThenSecureJoin "/" "/data" "../x" = .error "invalid path" :=
  ⟨by decide, C1_dotdot_pipeline_fails_invalid_path "/" "/data" "../x" (by decide)⟩

/-- C2 counterexample. The path `.` is a non-empty relative path string
containing no `..` segment and is not absolute, yet `sanitizeRelativePath`
rejects it with `invalid path` instead of succeeding. -/
theorem C2_counterexample :
    ("." : String) ≠ "" ∧ goIsAbs "." = false ∧ ".." ∉ splitSlash "." ∧
    sanitizeRelativePath "." = .error "invalid path" := by
  decide

/-- C2 (amended): for every non-empty relative path string `p` that carries
no surrounding whitespace, contains no `..` segment, is not absolute, and
whose lexical cleaning is not `.`, `sanitizeRelativePath p` succeeds and
returns the lexically cleaned (slash-normalized) equivalent of `p`. -/
theorem C2_sanitize_success (p : String) (htrim : goTrimSpace p = p) (hne : p ≠ "")
    (hdd : ".." ∉ splitSlash p) (habs : goIsAbs p = false)
    (hdot : goClean p ≠ ".") :
    sanitizeRelativePath p = .ok (goClean p) := by
  unfold sanitizeRelativePath
  rw [htrim, if_neg hne]
  rcases goClean_unrooted_stack p hne habs with ⟨hst, hcl⟩ | ⟨s0, rest, hst, hcl, hprops, hdp⟩
  · exact absurd hcl hdot
  · have hs0 := hprops s0 (by simp)
    have hs0dd : s0 ≠ ".." := by
      intro he
      have hmem : (".." : String) ∈ cleanSegs false (splitSlash p) := by
        rw [hst]; exact he ▸ List.mem_cons_self s0 rest
      rcases mem_cleanSegs_fold false (splitSlash p) [] ".." hmem with hm | hm
      · simp at hm
      · exact hdd hm
    obtain ⟨g1, g2, g3, g4⟩ := joinSegs_cons_props s0 rest hs0.1 hs0.2.1 hs0dd hs0.2.2
    rw [if_neg ?hcond]
    case hcond =>
      intro hor
      rcases hor with hc | hc | hc | hc
      · exact g1 (hcl ▸ hc)
      · exact g2 (hcl ▸ hc)
      · rw [hcl] at hc; rw [hc] at g3; exact absurd g3 (by simp)
      · rw [hcl] at hc; rw [hc] at g4; exact absurd g4 (by simp)

/-- C2 witness: the amended statement applied at the concrete input
`a/./b`, which sanitizes to its cleaned form `a/b`. -/
theorem C2_witness :
    goTrimSpace "a/./b" = "a/./b" ∧ ("a/./b" : String) ≠ "" ∧
    ".." ∉ splitSlash "a/./b" ∧ goIsAbs "a/./b" = false ∧
    goClean "a/./b" ≠ "." ∧
    sanitizeRelativePath "a/./b" = .ok (goClean "a/./b") :=
  ⟨by decide, by decide, by decide, by decide, by decide,
    C2_sanitize_success "a/./b" (by decide) (by decide) (by decide) (by decide) (by decide)⟩

/-! ### Filesystem model and the directory walk

The directory tree under the root is modelled explicitly.  A directory
entry carries its name; a file also carries its content.  Children are
stored in the order `os.ReadDir` yields them (sorted by name), which is the
order `filepath.WalkDir` visits them; no claim below depends on that order.
The two types are mutually inductive so that every recursion below is
structural. -/

mutual
inductive FSEntry : Type where
  | file (name : String) (content : String) : FSEntry
  | dir (name : String) (children : FSList) : FSEntry
  deriving DecidableEq
inductive FSList : Type where
  | nil : FSList
  | cons (e : FSEntry) (rest : FSList) : FSList
  deriving DecidableEq
end

/-- The name of a directory entry, model of `fs.DirEntry.Name`. -/
def entryName : FSEntry → String
  | .file n _ => n
  | .dir n _ => n

mutual
/-- All names occurring in an entry are plain segments (true of any real
filesystem: names are nonempty and contain no separator, and the walk never
yields the special entries `.` and `..`). -/
def wellFormedEntry : FSEntry → Bool
  | .file n _ => decide (plainSeg n)
  | .dir n cs => decide (plainSeg n) && wellFormedList cs
def wellFormedList : FSList → Bool
  | .nil => true
  | .cons e rest => wellFormedEntry e && wellFormedList rest
end

mutual
/-- Model of `filepath.WalkDir`: the sequence of `(path, name, isDir)`
triples the callback receives, visiting an entry before its children,
paths built with `filepath.Join`. -/
def walkEntry (path : String) : FSEntry → List (String × String × Bool)
  | .file n _ => [(path, n, false)]
  | .dir n cs => (path, n, true) :: walkList path cs
def walkList (path : String) : FSList → List (String × String × Bool)
  | .nil => []
  | .cons e rest => walkEntry (goJoin path (entryName e)) e ++ walkList path rest
end

/-- Model of `filepath.ToSlash`, the identity on Unix. -/
def toSlash (p : String) : String := p

/-- Character-list comparison at the first differing position, the model of
Go byte-wise string `<` (on UTF-8, byte order and code-point order agree). -/
def chLt : List Char → List Char → Bool
  | [], [] => false
  | [], _ :: _ => true
  | _ :: _, [] => false
  | a :: as, b :: bs => if a = b then chLt as bs else decide (a.toNat < b.toNat)

/-- Model of the Go string order `a <= b` used by `sort.Strings`. -/
def goStrLe (a b : String) : Bool :=
  !(chLt b.data a.data)

/-- Model of Go `sort.Strings` (ascending byte-wise order). -/
def sortStrings (l : List String) : List String :=
  List.insertionSort (fun a b => goStrLe a b = true) l

/-- The walk callback of `listMarkdownFiles` from main.go, run over the
walk sequence with the accumulated `files` slice: directories and
non-markdown names are skipped, every kept path is made root-relative
(aborting the walk on a `filepath.Rel` error) and slash-normalized. -/
def collectMarkdown (root : String) :
    List (String × String × Bool) → List String → Except String (List String)
  | [], acc => .ok acc
  | (path, name, isDir) :: rest, acc =>
    if isDir then collectMarkdown root rest acc
    else if ¬ isMarkdownFile name then collectMarkdown root rest acc
    else
      match goRel root path with
      | .error e => .error e
      | .ok rel => collectMarkdown root rest (acc ++ [toSlash rel])

/-- Embedding of `listMarkdownFiles` from main.go over the tree model. -/
def listMarkdownFiles (root : String) (tree : FSEntry) : Except String (List String) :=
  match collectMarkdown root (walkEntry root tree) [] with
  | .error e => .error e
  | .ok files => .ok (sortStrings files)

/-! ### Lemmas about the string order, extensions and the walk -/

theorem chLt_trans (a : List Char) :
    ∀ b c : List Char, chLt a b = true → chLt b c = true → chLt a c = true := by
  induction a with
  | nil =>
    intro b c hab hbc
    match b, c with
    | [], _ => simp [chLt] at hab
    | _ :: _, [] => simp [chLt] at hbc
    | _ :: _, _ :: _ => simp [chLt]
  | cons x xs ih =>
    intro b c hab hbc
    match b, c with
    | [], _ => simp [chLt] at hab
    | _ :: _, [] => simp [chLt] at hbc
    | y :: ys, z :: zs =>
      unfold chLt at hab hbc ⊢
      by_cases hxy : x = y
      · subst hxy
        simp only [if_pos rfl] at hab
        by_cases hyz : x = z
        · subst hyz
          simp only [if_pos rfl] at hbc ⊢
          exact ih ys zs hab hbc
        · simp only [if_neg hyz] at hbc ⊢
          exact hbc
      · simp only [if_neg hxy] at hab
        by_cases hyz : y = z
        · subst hyz
          simp only [if_neg hxy]
          exact hab
        · simp only [if_neg hyz] at hbc
          have h1 : x.toNat < y.toNat := of_decide_eq_true hab
          have h2 : y.toNat < z.toNat := of_decide_eq_true hbc
          have hxz : x ≠ z := by
            intro he; subst he; omega
          simp only [if_neg hxz]
          exact decide_eq_true (by omega)

theorem chLt_both_false (a : List Char) :
    ∀ b : List Char, chLt a b = false → chLt b a = false → a = b := by
  induction a with
  | nil =>
    intro b hab _
    match b with
    | [] => rfl
    | _ :: _ => simp [chLt] at hab
  | cons x xs ih =>
    intro b hab hba
    match b with
    | [] => simp [chLt] at hba
    | y :: ys =>
      unfold chLt at hab hba
      by_cases hxy : x = y
      · subst hxy
        simp only [if_pos rfl] at hab hba
        rw [ih ys hab hba]
      · simp only [if_neg hxy] at hab
        simp only [if_neg (fun he : y = x => hxy he.symm)] at hba
        have h1 : ¬ x.toNat < y.toNat := of_decide_eq_false hab
        have h2 : ¬ y.toNat < x.toNat := of_decide_eq_false hba
        have h3 : x.toNat = y.toNat := by omega
        exact absurd (Char.ext (UInt32.ext h3)) hxy

theorem chLt_irrefl (a : List Char) : chLt a a = false := by
  induction a with
  | nil => rfl
  | cons x xs ih => unfold chLt; simp [ih]

instance : IsTotal String (fun a b => goStrLe a b = true) := by
  constructor
  intro a b
  unfold goStrLe
  cases h : chLt b.data a.data
  · left; simp
  · right
    cases h2 : chLt a.data b.data
    · simp
    · have h3 := chLt_trans b.data a.data b.data h h2
      rw [chLt_irrefl b.data] at h3
      exact absurd h3 (by simp)

instance : IsTrans String (fun a b => goStrLe a b = true) := by
  constructor
  intro a b c hab hbc
  unfold goStrLe at hab hbc ⊢
  simp only [Bool.not_eq_true'] at hab hbc ⊢
  cases hca : chLt c.data a.data
  · rfl
  · cases hab2 : chLt a.data b.data
    · rw [chLt_both_false a.data b.data hab2 hab] at hca
      rw [hca] at hbc
      exact hbc
    · have := chLt_trans c.data a.data b.data hca hab2
      rw [this] at hbc
      exact hbc

theorem goExtAux_append (b : List Char) :
    ∀ (sofar a : List Char), goExtAux sofar (b ++ '/' :: a) = goExtAux sofar b := by
  induction b with
  | nil => intro sofar a; simp [goExtAux]
  | cons c rest ih =>
    intro sofar a
    rw [List.cons_append]
    show goExtAux sofar (c :: (rest ++ '/' :: a)) = goExtAux sofar (c :: rest)
    simp only [goExtAux]
    by_cases hc : c = '/'
    · simp [hc]
    · by_cases hd : c = '.'
      · simp [hc, hd]
      · simp only [if_neg hc, if_neg hd]
        exact ih (c :: sofar) a

theorem goExt_data_append (s : String) (A B : List Char) (h : s.data = A ++ '/' :: B) :
    goExt s = goExt (String.mk B) := by
  unfold goExt
  rw [h, data_mk]
  have : (A ++ '/' :: B).reverse = B.reverse ++ '/' :: A.reverse := by
    rw [List.reverse_append]
    simp
  rw [this, goExtAux_append]

theorem goExt_joinSegs_last (D : List String) (n : String) (hlast : D.getLast? = some n) :
    goExt (joinSegs D) = goExt n := by
  obtain ⟨ys, rfl⟩ := List.getLast?_eq_some_iff.mp hlast
  match ys with
  | [] => rfl
  | y :: t =>
    rw [joinSegs_append_single (y :: t) n (by simp)]
    exact goExt_data_append _ (joinSegs (y :: t)).data n.data
      (by rw [String.data_append, String.data_append]
          simp [show ("/" : String).data = ['/'] from rfl])

theorem isMarkdownFile_ext_congr (a b : String) (h : goExt a = goExt b) :
    isMarkdownFile a = isMarkdownFile b := by
  unfold isMarkdownFile
  rw [h]

theorem bool_and_true (a b : Bool) (h : (a && b) = true) : a = true ∧ b = true := by
  simp at h; exact h

theorem entryName_plain (e : FSEntry) (h : wellFormedEntry e = true) :
    plainSeg (entryName e) := by
  match e with
  | .file n c =>
    exact of_decide_eq_true h
  | .dir n cs =>
    unfold wellFormedEntry at h
    exact of_decide_eq_true (bool_and_true _ _ h).1

theorem goJoin_mkAbs (T : List String) (x : String) (hT : ∀ y ∈ T, plainSeg y)
    (hx : plainSeg x) : goJoin (mkAbs T) x = mkAbs (T ++ [x]) := by
  rw [goJoin_abs_plain (mkAbs T) x (goIsAbs_mkAbs T) hx, cleanAbs_mkAbs T hT]

mutual
theorem walkEntry_shape (e : FSEntry) (S0 : List String)
    (hS0 : ∀ x ∈ S0, plainSeg x) (hwf : wellFormedEntry e = true) :
    ∀ p n, (p, n, false) ∈ walkEntry (mkAbs (S0 ++ [entryName e])) e →
      ∃ D, D ≠ [] ∧ (∀ x ∈ D, plainSeg x) ∧ D.getLast? = some n ∧ p = mkAbs (S0 ++ D) :=
  match e with
  | .file nm c => by
    intro p n hmem
    simp [walkEntry] at hmem
    obtain ⟨hp, hn⟩ := hmem
    refine ⟨[nm], by simp, ?_, by simp [hn, entryName], by rw [hp]; rfl⟩
    intro x hx
    simp at hx
    subst hx
    exact of_decide_eq_true hwf
  | .dir nm cs => by
    intro p n hmem
    simp only [walkEntry, List.mem_cons] at hmem
    rcases hmem with hmem | hmem
    · simp at hmem
    · have hwf2 := bool_and_true _ _ hwf
      have hplain : ∀ x ∈ S0 ++ [entryName (FSEntry.dir nm cs)], plainSeg x := by
        intro x hx
        rcases List.mem_append.mp hx with h | h
        · exact hS0 x h
        · simp at h
          subst h
          exact of_decide_eq_true hwf2.1
      obtain ⟨D, hD1, hD2, hD3, hD4⟩ := walkList_shape cs (mkAbs (S0 ++ [entryName (FSEntry.dir nm cs)]))
        (S0 ++ [entryName (FSEntry.dir nm cs)]) hplain
        (fun x hx => goJoin_mkAbs (S0 ++ [entryName (FSEntry.dir nm cs)]) x hplain hx)
        hwf2.2 p n hmem
      refine ⟨entryName (FSEntry.dir nm cs) :: D, by simp, ?_, ?_, ?_⟩
      · intro x hx
        rcases List.mem_cons.mp hx with h | h
        · subst h; exact of_decide_eq_true hwf2.1
        · exact hD2 x h
      · rw [show entryName (FSEntry.dir nm cs) :: D = [entryName (FSEntry.dir nm cs)] ++ D from rfl,
          List.getLast?_append_of_ne_nil [entryName (FSEntry.dir nm cs)] hD1]
        exact hD3
      · rw [hD4, List.append_assoc]
        rfl

theorem walkList_shape (cs : FSList) (p0 : String) (S : List String)
    (hS : ∀ x ∈ S, plainSeg x)
    (hjoin : ∀ x, plainSeg x → goJoin p0 x = mkAbs (S ++ [x]))
    (hwf : wellFormedList cs = true) :
    ∀ p n, (p, n, false) ∈ walkList p0 cs →
      ∃ D, D ≠ [] ∧ (∀ x ∈ D, plainSeg x) ∧ D.getLast? = some n ∧ p = mkAbs (S ++ D) :=
  match cs with
  | .nil => by intro p n hmem; simp [walkList] at hmem
  | .cons e rest => by
    intro p n hmem
    unfold walkList at hmem
    have hwf2 := bool_and_true _ _ hwf
    rcases List.mem_append.mp hmem with hmem | hmem
    · rw [hjoin (entryName e) (entryName_plain e hwf2.1)] at hmem
      exact walkEntry_shape e S hS hwf2.1 p n hmem
    · exact walkList_shape rest p0 S hS hjoin hwf2.2 p n hmem
end

theorem collectMarkdown_acc_sub (root : String) (entries : List (String × String × Bool)) :
    ∀ (acc l : List String), collectMarkdown root entries acc = .ok l →
      ∀ s ∈ acc, s ∈ l := by
  induction entries with
  | nil =>
    intro acc l h s hs
    unfold collectMarkdown at h
    cases h
    exact hs
  | cons entry rest ih =>
    intro acc l h s hs
    obtain ⟨path, name, isDir⟩ := entry
    unfold collectMarkdown at h
    split at h
    · exact ih acc l h s hs
    · split at h
      · exact ih acc l h s hs
      · split at h
        · exact absurd h (by simp)
        · exact ih _ l h s (by simp [hs])

theorem collectMarkdown_mem (root : String) (entries : List (String × String × Bool)) :
    ∀ (acc l : List String), collectMarkdown root entries acc = .ok l →
      ∀ s ∈ l, s ∈ acc ∨ ∃ p n, (p, n, false) ∈ entries ∧ isMarkdownFile n = true ∧
        ∃ r, goRel root p = .ok r ∧ s = toSlash r := by
  induction entries with
  | nil =>
    intro acc l h s hs
    unfold collectMarkdown at h
    cases h
    exact Or.inl hs
  | cons entry rest ih =>
    intro acc l h s hs
    obtain ⟨path, name, isDir⟩ := entry
    unfold collectMarkdown at h
    by_cases hdir : isDir = true
    · rw [if_pos hdir] at h
      rcases ih acc l h s hs with hc | ⟨p, n, hm, hmd, r, hr, hsr⟩
      · exact Or.inl hc
      · exact Or.inr ⟨p, n, by simp [hm], hmd, r, hr, hsr⟩
    · rw [if_neg hdir] at h
      by_cases hmdn : isMarkdownFile name = true
      · rw [if_neg (by simp [hmdn])] at h
        rcases hgr : goRel root path with e | rel
        · rw [hgr] at h; exact absurd h (by simp)
        · rw [hgr] at h
          rcases ih _ l h s hs with hc | ⟨p, n, hm, hmd2, r, hr, hsr⟩
          · rcases List.mem_append.mp hc with hc | hc
            · exact Or.inl hc
            · simp at hc
              have hdf : isDir = false := by
                cases isDir with
                | false => rfl
                | true => exact absurd rfl hdir
              exact Or.inr ⟨path, name, by simp [hdf], hmdn, rel, hgr, hc⟩
          · exact Or.inr ⟨p, n, by simp [hm], hmd2, r, hr, hsr⟩
      · rw [if_pos (by simpa using hmdn)] at h
        rcases ih acc l h s hs with hc | ⟨p, n, hm, hmd, r, hr, hsr⟩
        · exact Or.inl hc
        · exact Or.inr ⟨p, n, by simp [hm], hmd, r, hr, hsr⟩

theorem collectMarkdown_complete (root : String) (entries : List (String × String × Bool)) :
    ∀ (acc l : List String), collectMarkdown root entries acc = .ok l →
      ∀ p n, (p, n, false) ∈ entries → isMarkdownFile n = true →
        ∃ r, goRel root p = .ok r ∧ toSlash r ∈ l := by
  induction entries with
  | nil =>
    intro acc l h p n hm
    simp at hm
  | cons entry rest ih =>
    intro acc l h p n hm hmd
    obtain ⟨path, name, isDir⟩ := entry
    unfold collectMarkdown at h
    rcases List.mem_cons.mp hm with hme | hme
    · have hp : p = path := congrArg Prod.fst hme
      have hn : n = name := congrArg (fun q => q.2.1) hme
      have hd : false = isDir := congrArg (fun q => q.2.2) hme
      subst hp
      rw [if_neg (by rw [← hd]; simp)] at h
      rw [if_neg (by rw [← hn]; simp [hmd])] at h
      rcases hgr : goRel root p with e | rel
      · rw [hgr] at h; exact absurd h (by simp)
      · rw [hgr] at h
        exact ⟨rel, rfl, collectMarkdown_acc_sub root rest _ l h (toSlash rel) (by simp)⟩
    · by_cases hdir : isDir = true
      · rw [if_pos hdir] at h
        exact ih acc l h p n hme hmd
      · rw [if_neg hdir] at h
        by_cases hmdn : isMarkdownFile name = true
        · rw [if_neg (by simp [hmdn])] at h
          rcases hgr : goRel root path with e | rel
          · rw [hgr] at h; exact absurd h (by simp)
          · rw [hgr] at h
            exact ih _ l h p n hme hmd
        · rw [if_pos (by simpa using hmdn)] at h
          exact ih acc l h p n hme hmd

/-- C3: for every absolute root and well-formed directory tree on which the
walk succeeds, `listMarkdownFiles` returns only entries whose lower-cased
extension is `.md` or `.markdown`, each entry being the slash-normalized
root-relative path of a file the walk visited, and the returned list is
sorted ascending in the byte-wise string order. -/
theorem C3_listMarkdownFiles_sorted_markdown_only (root nm : String) (cs : FSList)
    (l : List String) (hroot : goIsAbs root = true) (hwf : wellFormedList cs = true)
    (hok : listMarkdownFiles root (.dir nm cs) = .ok l) :
    List.Sorted (fun a b => goStrLe a b = true) l ∧
    ∀ s ∈ l, isMarkdownFile s = true ∧
      ∃ p n r, (p, n, false) ∈ walkEntry root (.dir nm cs) ∧ isMarkdownFile n = true ∧
        goRel root p = .ok r ∧ s = toSlash r := by
  unfold listMarkdownFiles at hok
  rcases hcol : collectMarkdown root (walkEntry root (.dir nm cs)) [] with e | files
  · rw [hcol] at hok; exact absurd hok (by simp)
  rw [hcol] at hok
  have hl : l = sortStrings files := by
    cases hok; rfl
  constructor
  · rw [hl]
    exact List.sorted_insertionSort _ files
  · intro s hs
    have hsf : s ∈ files := by
      rw [hl] at hs
      exact (List.perm_insertionSort _ files).mem_iff.mp hs
    rcases collectMarkdown_mem root _ [] files hcol s hsf with hc | ⟨p, n, hm, hmd, r, hr, hsr⟩
    · simp at hc
    · have hm2 : (p, n, false) ∈ walkList root cs := by
        simpa [walkEntry] using hm
      obtain ⟨D, hD1, hD2, hD3, hD4⟩ := walkList_shape cs root (cleanAbs root)
        (plainSegs_cleanAbs root)
        (fun x hx => goJoin_abs_plain root x hroot hx) hwf p n hm2
      have hrel2 : goRel root p = .ok (joinSegs D) := by
        rw [hD4]
        exact goRel_canon root D hroot hD2 hD1
      have hreq : r = joinSegs D := by
        have h5 := hr.symm.trans hrel2
        simpa using h5
      constructor
      · rw [hsr]
        show isMarkdownFile r = true
        rw [hreq, isMarkdownFile_ext_congr (joinSegs D) n (goExt_joinSegs_last D n hD3)]
        exact hmd
      · exact ⟨p, n, r, hm, hmd, hr, hsr⟩

/-- C3 witness: the theorem applied to a concrete root and tree containing
nested markdown and non-markdown files. -/
theorem C3_witness :
    goIsAbs "/r" = true ∧
    wellFormedList (.cons (.file "b.md" "hi")
      (.cons (.dir "sub" (.cons (.file "a.md" "yo") .nil))
        (.cons (.file "c.txt" "no") .nil))) = true ∧
    listMarkdownFiles "/r" (.dir "r" (.cons (.file "b.md" "hi")
      (.cons (.dir "sub" (.cons (.file "a.md" "yo") .nil))
        (.cons (.file "c.txt" "no") .nil)))) = .ok ["b.md", "sub/a.md"] ∧
    (List.Sorted (fun a b => goStrLe a b = true) ["b.md", "sub/a.md"] ∧
      ∀ s ∈ ["b.md", "sub/a.md"], isMarkdownFile s = true ∧
        ∃ p n r, (p, n, false) ∈ walkEntry "/r" (.dir "r" (.cons (.file "b.md" "hi")
            (.cons (.dir "sub" (.cons (.file "a.md" "yo") .nil))
              (.cons (.file "c.txt" "no") .nil)))) ∧ isMarkdownFile n = true ∧
          goRel "/r" p = .ok r ∧ s = toSlash r) :=
  ⟨by decide, by decide, by decide,
    C3_listMarkdownFiles_sorted_markdown_only "/r" "r"
      (.cons (.file "b.md" "hi")
        (.cons (.dir "sub" (.cons (.file "a.md" "yo") .nil))
          (.cons (.file "c.txt" "no") .nil)))
      ["b.md", "sub/a.md"] (by decide) (by decide) (by decide)⟩

/-! ### Claim C9: the archive destination stays in the index -/

/-- The destination path built by `handleArchive` in main.go for a
sanitized relative path: `filepath.Join(root, dirRel, ".archive")` followed
by `filepath.Join(archiveDir, fileName)`. -/
def archiveDest (root relPath : String) : String :=
  let dirRel := goDir relPath
  let fileName := goBase relPath
  let archiveDir := goJoinList [root, dirRel, ".archive"]
  goJoin archiveDir fileName

theorem dropWhile_stop_head (p : Char → Bool) (c : Char) (t : List Char)
    (h : p c = false) : (c :: t).dropWhile p = c :: t := by
  simp [List.dropWhile, h]

theorem dropWhile_noSlash_append (a : List Char) (h : '/' ∉ a) :
    ∀ b : List Char, (a ++ '/' :: b).dropWhile (fun c => !(c = '/')) = '/' :: b := by
  induction a with
  | nil => intro b; simp [List.dropWhile]
  | cons c t ih =>
    intro b
    have hc : ¬ c = '/' := fun he => h (by simp [he])
    simp only [List.cons_append, List.dropWhile]
    simp [hc, ih (fun hm => h (by simp [hm])) b]

theorem dropWhile_noSlash_all (a : List Char) (h : '/' ∉ a) :
    a.dropWhile (fun c => !(c = '/')) = [] := by
  induction a with
  | nil => rfl
  | cons c t ih =>
    have hc : ¬ c = '/' := fun he => h (by simp [he])
    simp only [List.dropWhile]
    simp [hc, ih (fun hm => h (by simp [hm]))]

theorem takeWhile_noSlash_append (a : List Char) (h : '/' ∉ a) :
    ∀ b : List Char, (a ++ '/' :: b).takeWhile (fun c => !(c = '/')) = a := by
  induction a with
  | nil => intro b; simp [List.takeWhile]
  | cons c t ih =>
    intro b
    have hc : ¬ c = '/' := fun he => h (by simp [he])
    simp only [List.cons_append, List.takeWhile]
    simp [hc, ih (fun hm => h (by simp [hm])) b]

theorem takeWhile_noSlash_all (a : List Char) (h : '/' ∉ a) :
    a.takeWhile (fun c => !(c = '/')) = a := by
  induction a with
  | nil => rfl
  | cons c t ih =>
    have hc : ¬ c = '/' := fun he => h (by simp [he])
    simp only [List.takeWhile]
    simp [hc, ih (fun hm => h (by simp [hm]))]

theorem goBase_joinSegs (ss : List String) (n : String) (hp : ∀ x ∈ ss ++ [n], plainSeg x) :
    goBase (joinSegs (ss ++ [n])) = n := by
  have hn := hp n (by simp)
  have hnrev : '/' ∉ n.data.reverse := fun hm => hn.2.2.2 (List.mem_reverse.mp hm)
  have hnne : n.data.reverse ≠ [] := by
    intro he
    have : n.data = [] := by simpa using congrArg List.reverse he
    exact hn.1 (String.ext_iff.mpr (by rw [this]))
  match hr : n.data.reverse with
  | [] => exact absurd hr hnne
  | c :: t =>
    have hcns : ¬ c = '/' := fun he => hnrev (by rw [hr, he]; simp)
    match hss : ss with
    | [] =>
      show goBase (joinSegs [n]) = n
      have hje : joinSegs [n] = n := rfl
      rw [hje]
      unfold goBase
      rw [if_neg hn.1, hr, dropWhile_stop_head _ c t (by simp [hcns])]
      simp only [List.reverse_reverse]
      rw [if_neg ?hcs]
      case hcs =>
        intro he
        have h2 := congrArg List.length he
        simp at h2
      rw [← hr, takeWhile_noSlash_all n.data.reverse hnrev, List.reverse_reverse, mk_data]
    | y :: ys =>
      have hpd : (joinSegs ((y :: ys) ++ [n])).data =
          (joinSegs (y :: ys)).data ++ '/' :: n.data := by
        rw [joinSegs_append_single (y :: ys) n (by simp), String.data_append,
          String.data_append]
        simp [show ("/" : String).data = ['/'] from rfl]
      have hrev : (joinSegs ((y :: ys) ++ [n])).data.reverse =
          n.data.reverse ++ '/' :: (joinSegs (y :: ys)).data.reverse := by
        rw [hpd, List.reverse_append]
        simp
      unfold goBase
      rw [if_neg ?hne0]
      case hne0 =>
        apply joinSegs_ne_empty
        exact (hp y (by simp)).1
      rw [hrev, hr, List.cons_append,
        dropWhile_stop_head _ c (t ++ '/' :: (joinSegs (y :: ys)).data.reverse) (by simp [hcns])]
      simp only [List.reverse_reverse]
      rw [if_neg ?hcs2]
      case hcs2 =>
        intro he
        have h2 := congrArg List.length he
        simp at h2
      rw [← List.cons_append, ← hr, takeWhile_noSlash_append n.data.reverse hnrev,
        List.reverse_reverse, mk_data]

theorem joinSegs_data_shape (s0 : String) (rest : List String) :
    ∃ t, (joinSegs (s0 :: rest)).data = s0.data ++ t := by
  match rest with
  | [] => exact ⟨[], by simp [joinSegs]⟩
  | r :: t2 => exact ⟨'/' :: (joinSegs (r :: t2)).data, joinSegs_data_cons s0 (r :: t2) (by simp)⟩

theorem goClean_trailing_slash (ss : List String) (hp : ∀ x ∈ ss, plainSeg x)
    (hne : ss ≠ []) :
    goClean (String.mk ((joinSegs ss).data ++ ['/'])) = joinSegs ss := by
  match ss with
  | y :: ys =>
    have hy := hp y (by simp)
    obtain ⟨c, cs, hyd⟩ : ∃ c cs, y.data = c :: cs := by
      match hyd : y.data with
      | [] => exact absurd (String.ext_iff.mpr (by rw [hyd])) hy.1
      | c :: cs => exact ⟨c, cs, rfl⟩
    have hcslash : ¬ c = '/' := fun he => hy.2.2.2 (by rw [hyd, he]; simp)
    obtain ⟨t, hjd⟩ := joinSegs_data_shape y ys
    unfold goClean
    rw [if_neg ?h1]
    case h1 =>
      intro he
      have h2 := congrArg String.data he
      rw [data_mk] at h2
      simp at h2
    have habs : goIsAbs (String.mk ((joinSegs (y :: ys)).data ++ ['/'])) = false := by
      unfold goIsAbs goStartsWith
      rw [data_mk, hjd, hyd]
      simp [chPrefix_cons_cons, hcslash]
      intro he
      exact absurd he.symm hcslash
    rw [habs]
    simp only [if_false, Bool.false_eq_true]
    have hsplit : splitSlash (String.mk ((joinSegs (y :: ys)).data ++ ['/'])) =
        (y :: ys) ++ [""] := by
      unfold splitSlash
      rw [data_mk, show ((joinSegs (y :: ys)).data ++ ['/']) =
        ((joinSegs (y :: ys)).data ++ '/' :: []) from rfl, splitSlashAux_append]
      rw [show splitSlashAux [] (joinSegs (y :: ys)).data = splitSlash (joinSegs (y :: ys)) from rfl]
      rw [splitSlash_joinSegs (y :: ys) (by simp) (fun x hx => (hp x hx).2.2.2)]
      rfl
    rw [hsplit]
    have hclean : cleanSegs false ((y :: ys) ++ [""]) = y :: ys := by
      unfold cleanSegs
      rw [List.foldl_append]
      rw [show List.foldl (cleanStep false) [] (y :: ys) = cleanSegs false (y :: ys) from rfl]
      rw [show cleanSegs false (y :: ys) = [] ++ (y :: ys) from
        cleanSegs_plain_fold false (y :: ys)
          (fun x hx => ⟨(hp x hx).1, (hp x hx).2.1, (hp x hx).2.2.1⟩) []]
      show List.foldl (cleanStep false) (y :: ys) [""] = y :: ys
      simp only [List.foldl_cons, List.foldl_nil]
      unfold cleanStep
      simp
    rw [hclean, if_neg (joinSegs_ne_empty y ys hy.1)]

theorem goDir_joinSegs (ss : List String) (n : String) (hp : ∀ x ∈ ss ++ [n], plainSeg x) :
    goDir (joinSegs (ss ++ [n])) = if ss = [] then "." else joinSegs ss := by
  have hn := hp n (by simp)
  have hnrev : '/' ∉ n.data.reverse := fun hm => hn.2.2.2 (List.mem_reverse.mp hm)
  match ss with
  | [] =>
    show goDir (joinSegs [n]) = "."
    unfold goDir
    rw [show joinSegs [n] = n from rfl, dropWhile_noSlash_all n.data.reverse hnrev]
    rfl
  | y :: ys =>
    have hpd : (joinSegs ((y :: ys) ++ [n])).data =
        (joinSegs (y :: ys)).data ++ '/' :: n.data := by
      rw [joinSegs_append_single (y :: ys) n (by simp), String.data_append, String.data_append]
      simp [show ("/" : String).data = ['/'] from rfl]
    have hrev : (joinSegs ((y :: ys) ++ [n])).data.reverse =
        n.data.reverse ++ '/' :: (joinSegs (y :: ys)).data.reverse := by
      rw [hpd, List.reverse_append]
      simp
    rw [if_neg (by simp)]
    unfold goDir
    rw [hrev, dropWhile_noSlash_append n.data.reverse hnrev ((joinSegs (y :: ys)).data.reverse)]
    rw [show ('/' :: (joinSegs (y :: ys)).data.reverse).reverse =
      (joinSegs (y :: ys)).data ++ ['/'] from by simp]
    exact goClean_trailing_slash (y :: ys) (fun x hx => hp x (by
      rcases List.mem_cons.mp hx with h | h
      · simp [h]
      · simp [h])) (by simp)

theorem joinSegs_ne_empty_plain (ss : List String) (hne : ss ≠ [])
    (hp : ∀ x ∈ ss, plainSeg x) : joinSegs ss ≠ "" := by
  match ss with
  | y :: ys => exact joinSegs_ne_empty y ys (hp y (by simp)).1

theorem cleanSegs_fold_dots (r : Bool) (l : List String)
    (h : ∀ x ∈ l, x = "." ∨ plainSeg x) :
    ∀ st, l.foldl (cleanStep r) st = st ++ l.filter (fun x => x ≠ ".") := by
  induction l with
  | nil => intro st; simp
  | cons s rest ih =>
    intro st
    rcases h s (by simp) with hs | hs
    · subst hs
      rw [List.foldl_cons, show cleanStep r st "." = st from by unfold cleanStep; simp]
      rw [ih (fun x hx => h x (by simp [hx])) st]
      simp
    · rw [List.foldl_cons, cleanStep_plain r st s hs.1 hs.2.1 hs.2.2.1]
      rw [ih (fun x hx => h x (by simp [hx])) (st ++ [s])]
      have hsd : (s ≠ ".") = True := by simp [hs.2.1]
      simp [List.filter_cons, hs.2.1]

theorem goClean_abs_tail (root tail : String) (S : List String)
    (hroot : goIsAbs root = true) (hsplit : splitSlash tail = S)
    (hS : ∀ x ∈ S, x = "." ∨ plainSeg x) :
    goClean (root ++ "/" ++ tail) = mkAbs (cleanAbs root ++ S.filter (fun x => x ≠ ".")) := by
  obtain ⟨t0, ht0⟩ := goIsAbs_data root hroot
  have hrne : root ≠ "" := ne_empty_of_data root '/' t0 ht0
  unfold goClean
  rw [if_neg ?hne1]
  case hne1 =>
    intro he
    have h2 := congrArg String.data he
    rw [String.data_append, String.data_append, ht0] at h2
    simp at h2
  have habs2 : goIsAbs (root ++ "/" ++ tail) = true := by
    rw [show root ++ "/" ++ tail = root ++ ("/" ++ tail) from by rw [String.append_assoc],
      goIsAbs_append root ("/" ++ tail) hrne]
    exact hroot
  rw [habs2]
  simp only [if_true]
  rw [splitSlash_append, hsplit]
  have hfold : cleanSegs true (splitSlash root ++ S) =
      cleanAbs root ++ S.filter (fun x => x ≠ ".") := by
    unfold cleanSegs
    rw [List.foldl_append]
    rw [show List.foldl (cleanStep true) [] (splitSlash root) = cleanAbs root from rfl]
    exact cleanSegs_fold_dots true S hS (cleanAbs root)
  rw [hfold]
  match hres : cleanAbs root ++ S.filter (fun x => x ≠ ".") with
  | [] => simp [joinSegs, mkAbs]
  | s0 :: rest =>
    have hplain0 : plainSeg s0 := by
      have hm : s0 ∈ cleanAbs root ++ S.filter (fun x => x ≠ ".") := by rw [hres]; simp
      rcases List.mem_append.mp hm with hm2 | hm2
      · exact plainSegs_cleanAbs root s0 hm2
      · have hm3 := List.mem_of_mem_filter hm2
        rcases hS s0 hm3 with he | he
        · exact absurd (by simp [he] : decide (s0 ≠ ".") = false)
            (by simp [List.mem_filter.mp hm2])
        · exact he
    rw [if_neg (joinSegs_ne_empty s0 rest hplain0.1)]
    unfold mkAbs
    rw [if_neg (by simp)]

theorem goJoinList3 (root b : String) (hrne : root ≠ "") (hb : b ≠ "") :
    goJoinList [root, b, ".archive"] = goClean (root ++ "/" ++ (b ++ "/" ++ ".archive")) := by
  unfold goJoinList
  have hfil : [root, b, ".archive"].filter (fun e => e ≠ "") = [root, b, ".archive"] := by
    simp [hrne, hb]
  rw [hfil, if_neg (by simp)]
  rfl

theorem archiveDest_canon (root : String) (ss : List String) (n : String)
    (hroot : goIsAbs root = true) (hp : ∀ x ∈ ss ++ [n], plainSeg x) :
    archiveDest root (joinSegs (ss ++ [n])) =
      mkAbs (cleanAbs root ++ (ss ++ [".archive", n])) := by
  obtain ⟨t0, ht0⟩ := goIsAbs_data root hroot
  have hrne : root ≠ "" := ne_empty_of_data root '/' t0 ht0
  have harchp : plainSeg (".archive" : String) := by decide
  have hnp : plainSeg n := hp n (by simp)
  unfold archiveDest
  rw [goDir_joinSegs ss n hp, goBase_joinSegs ss n hp]
  match ss with
  | [] =>
    show goJoin (goJoinList [root, ".", ".archive"]) n =
      mkAbs (cleanAbs root ++ ([] ++ [".archive", n]))
    rw [goJoinList3 root "." hrne (by decide)]
    rw [goClean_abs_tail root ("." ++ "/" ++ ".archive") [".", ".archive"] hroot ?hsp ?hsd]
    case hsp =>
      rw [splitSlash_append, splitSlash_noSlash "." (by decide),
        splitSlash_noSlash ".archive" (by decide)]
      rfl
    case hsd =>
      intro x hx
      rcases List.mem_cons.mp hx with h | h
      · exact Or.inl h
      · simp at h
        subst h
        exact Or.inr harchp
    rw [show (["." , ".archive"].filter (fun x => x ≠ ".")) = [".archive"] from by decide]
    rw [goJoin_mkAbs (cleanAbs root ++ [".archive"]) n ?hplT hnp]
    case hplT =>
      intro y hy
      rcases List.mem_append.mp hy with h | h
      · exact plainSegs_cleanAbs root y h
      · simp at h; subst h; exact harchp
    rw [List.append_assoc]
    rfl
  | y :: ys =>
    have hplss : ∀ x ∈ y :: ys, plainSeg x := by
      intro x hx
      apply hp
      rcases List.mem_cons.mp hx with h | h
      · simp [h]
      · simp [h]
    show goJoin (goJoinList [root, joinSegs (y :: ys), ".archive"]) n =
      mkAbs (cleanAbs root ++ (y :: ys ++ [".archive", n]))
    rw [goJoinList3 root (joinSegs (y :: ys)) hrne
      (joinSegs_ne_empty_plain (y :: ys) (by simp) hplss)]
    rw [goClean_abs_tail root (joinSegs (y :: ys) ++ "/" ++ ".archive")
      ((y :: ys) ++ [".archive"]) hroot ?hsp2 ?hsd2]
    case hsp2 =>
      rw [splitSlash_append, splitSlash_noSlash ".archive" (by decide),
        splitSlash_joinSegs (y :: ys) (by simp) (fun x hx => (hplss x hx).2.2.2)]
    case hsd2 =>
      intro x hx
      rcases List.mem_append.mp hx with h | h
      · exact Or.inr (hplss x h)
      · simp at h; subst h; exact Or.inr harchp
    have hfil : (((y :: ys) ++ [".archive"]).filter (fun x => x ≠ ".")) =
        (y :: ys) ++ [".archive"] := by
      rw [List.filter_eq_self.mpr]
      intro x hx
      rcases List.mem_append.mp hx with h | h
      · simp [(hplss x h).2.1]
      · simp at h; subst h; decide
    rw [hfil]
    rw [goJoin_mkAbs (cleanAbs root ++ ((y :: ys) ++ [".archive"])) n ?hplT2 hnp]
    case hplT2 =>
      intro z hz
      rcases List.mem_append.mp hz with h | h
      · exact plainSegs_cleanAbs root z h
      · rcases List.mem_append.mp h with h2 | h2
        · exact hplss z h2
        · simp at h2; subst h2; exact harchp
    rw [List.append_assoc, List.append_assoc]
    rfl

theorem goExt_mkAbs (T : List String) (hne : T ≠ []) :
    goExt (mkAbs T) = goExt (joinSegs T) := by
  unfold mkAbs
  rw [if_neg hne]
  have hd : ("/" ++ joinSegs T).data = [] ++ '/' :: (joinSegs T).data := by
    rw [String.data_append]
    rfl
  rw [goExt_data_append ("/" ++ joinSegs T) [] (joinSegs T).data hd, mk_data]

/-- C9: archiving never removes a file from the index.  First part: for
every sanitized markdown path, the `.archive` destination built by
`handleArchive` still has a markdown extension and is still inside the
root (its path relative to the root is neither `..` nor `../`-prefixed).
Second part: whenever `listMarkdownFiles` succeeds, every file the walk
visits whose name has a markdown extension — in particular any file inside
a `.archive` directory, which the walk does not exclude — appears in the
returned index as its slash-normalized root-relative path. -/
theorem C9_archive_destination_stays_indexed :
    (∀ root q rel, goIsAbs root = true → sanitizeRelativePath q = .ok rel →
      isMarkdownFile rel = true →
      isMarkdownFile (archiveDest root rel) = true ∧
      ∃ r2, goRel root (archiveDest root rel) = .ok r2 ∧ r2 ≠ ".." ∧
        goStartsWith r2 "../" = false) ∧
    (∀ root tree l p n, listMarkdownFiles root tree = .ok l →
      (p, n, false) ∈ walkEntry root tree → isMarkdownFile n = true →
      ∃ r, goRel root p = .ok r ∧ toSlash r ∈ l) := by
  constructor
  · intro root q rel hroot hsan hmd
    obtain ⟨ss, hne, hplain, hrel, _⟩ := sanitize_structure q rel hsan
    rcases List.eq_nil_or_concat ss with he | ⟨ys, n, hconcat⟩
    · exact absurd he hne
    rw [List.concat_eq_append] at hconcat
    subst hconcat
    subst hrel
    rw [archiveDest_canon root ys n hroot hplain]
    have harchp : plainSeg (".archive" : String) := by decide
    have hplD : ∀ x ∈ ys ++ [".archive", n], plainSeg x := by
      intro x hx
      rcases List.mem_append.mp hx with h | h
      · exact hplain x (by simp [h])
      · rcases List.mem_cons.mp h with h2 | h2
        · subst h2; exact harchp
        · simp at h2; subst h2; exact hplain x (by simp)
    have hDne : ys ++ [".archive", n] ≠ [] := by simp
    have hlastD : (ys ++ [".archive", n]).getLast? = some n := by
      rw [show [".archive", n] = [".archive"] ++ [n] from rfl, ← List.append_assoc,
        List.getLast?_append_of_ne_nil (ys ++ [".archive"]) (by simp)]
      rfl
    have hrelc := goRel_canon root (ys ++ [".archive", n]) hroot hplD hDne
    constructor
    · have hTne : cleanAbs root ++ (ys ++ [".archive", n]) ≠ [] := by simp
      rw [isMarkdownFile_ext_congr (mkAbs (cleanAbs root ++ (ys ++ [".archive", n])))
        (joinSegs (cleanAbs root ++ (ys ++ [".archive", n])))
        (goExt_mkAbs (cleanAbs root ++ (ys ++ [".archive", n])) hTne)]
      rw [isMarkdownFile_ext_congr (joinSegs (cleanAbs root ++ (ys ++ [".archive", n]))) n
        (goExt_joinSegs_last (cleanAbs root ++ (ys ++ [".archive", n])) n
          (by rw [List.getLast?_append_of_ne_nil (cleanAbs root) hDne]; exact hlastD))]
      rw [← isMarkdownFile_ext_congr (joinSegs (ys ++ [n])) n
        (goExt_joinSegs_last (ys ++ [n]) n (by
          rw [List.getLast?_append_of_ne_nil ys (by simp)]; rfl))]
      exact hmd
    · refine ⟨joinSegs (ys ++ [".archive", n]), hrelc, ?_, ?_⟩
      · match hys : ys with
        | [] =>
          exact (joinSegs_cons_props ".archive" [n] harchp.1 harchp.2.1 harchp.2.2.1
            harchp.2.2.2).2.1
        | y :: ys2 =>
          have hy := hplain y (by simp)
          rw [List.cons_append]
          exact (joinSegs_cons_props y (ys2 ++ [".archive", n]) hy.1 hy.2.1 hy.2.2.1
            hy.2.2.2).2.1
      · match hys : ys with
        | [] =>
          exact (joinSegs_cons_props ".archive" [n] harchp.1 harchp.2.1 harchp.2.2.1
            harchp.2.2.2).2.2.1
        | y :: ys2 =>
          have hy := hplain y (by simp)
          rw [List.cons_append]
          exact (joinSegs_cons_props y (ys2 ++ [".archive", n]) hy.1 hy.2.1 hy.2.2.1
            hy.2.2.2).2.2.1
  · intro root tree l p n hok hmem hmd
    unfold listMarkdownFiles at hok
    rcases hcol : collectMarkdown root (walkEntry root tree) [] with e | files
    · rw [hcol] at hok; exact absurd hok (by simp)
    rw [hcol] at hok
    have hl : l = sortStrings files := by cases hok; rfl
    obtain ⟨r, hr, hmem2⟩ := collectMarkdown_complete root (walkEntry root tree) [] files
      hcol p n hmem hmd
    exact ⟨r, hr, by rw [hl]; exact (List.perm_insertionSort _ files).mem_iff.mpr hmem2⟩

/-- C9 witness: the first part applied to the sanitized path `docs/a.md`
under root `/r`; the second part applied to a tree whose only markdown file
lies inside a `.archive` directory, which the index still lists. -/
theorem C9_witness :
    (goIsAbs "/r" = true ∧ sanitizeRelativePath "docs/a.md" = .ok "docs/a.md" ∧
      isMarkdownFile "docs/a.md" = true ∧
      (isMarkdownFile (archiveDest "/r" "docs/a.md") = true ∧
        ∃ r2, goRel "/r" (archiveDest "/r" "docs/a.md") = .ok r2 ∧ r2 ≠ ".." ∧
          goStartsWith r2 "../" = false)) ∧
    (listMarkdownFiles "/r"
        (.dir "r" (.cons (.dir ".archive" (.cons (.file "a.md" "x") .nil)) .nil)) =
        .ok [".archive/a.md"] ∧
      ("/r/.archive/a.md", "a.md", false) ∈ walkEntry "/r"
        (.dir "r" (.cons (.dir ".archive" (.cons (.file "a.md" "x") .nil)) .nil)) ∧
      ∃ r, goRel "/r" "/r/.archive/a.md" = .ok r ∧ toSlash r ∈ [".archive/a.md"]) :=
  ⟨⟨by decide, by decide, by decide,
    C9_archive_destination_stays_indexed.1 "/r" "docs/a.md" "docs/a.md"
      (by decide) (by decide) (by decide)⟩,
   ⟨by decide, by decide,
    C9_archive_destination_stays_indexed.2 "/r"
      (.dir "r" (.cons (.dir ".archive" (.cons (.file "a.md" "x") .nil)) .nil))
      [".archive/a.md"] "/r/.archive/a.md" "a.md" (by decide) (by decide) (by decide)⟩⟩

/-! ### The sidecar metadata store

JSON documents are modelled as an abstract value tree; `encoding/json`
marshalling and unmarshalling of the two schema structs become total
functions on these trees.  The content store maps file paths to the JSON
value persisted there (`os.ReadFile` of an absent path is `none`). -/

inductive JVal : Type where
  | jnull : JVal
  | jbool (b : Bool) : JVal
  | jnum (n : Int) : JVal
  | jstr (s : String) : JVal
  | jarr (xs : List JVal) : JVal
  | jobj (fields : List (String × JVal)) : JVal

/-- The persisted JSON content of each absolute path; `none` models a file
that does not exist (`os.ErrNotExist`). -/
def FileStore : Type := String → Option JVal

/-- Model of `os.WriteFile`. -/
def fsWrite (fs : FileStore) (p : String) (j : JVal) : FileStore :=
  fun q => if q = p then some j else fs q

/-- Model of `os.Remove`. -/
def fsRemove (fs : FileStore) (p : String) : FileStore :=
  fun q => if q = p then none else fs q

/-- The `mdviewerData` struct of main.go: Go maps are modelled as
association lists whose keys are distinct (the Go map invariant). -/
structure MdviewerData : Type where
  tags : List (String × List String)
  opened : List (String × Bool)
  deriving DecidableEq

/-- Go map assignment `m[k] = v`: replace the binding if the key is
present, append it otherwise. -/
def mapInsert {α : Type} (m : List (String × α)) (k : String) (v : α) :
    List (String × α) :=
  if m.any (fun kv => kv.1 = k) then
    m.map (fun kv => if kv.1 = k then (k, v) else kv)
  else m ++ [(k, v)]

/-- Go map lookup `m[k]` returning the zero value marker `none` when the
key is absent. -/
def mapLookup {α : Type} (m : List (String × α)) (k : String) : Option α :=
  (m.find? (fun kv => kv.1 = k)).map (fun kv => kv.2)

/-- Go `delete(m, k)`. -/
def mapDelete {α : Type} (m : List (String × α)) (k : String) :
    List (String × α) :=
  m.filter (fun kv => kv.1 ≠ k)

/-- Go encodes map keys in sorted order; model of the key sort performed by
`json.Marshal` on a map. -/
def sortByKey {α : Type} (m : List (String × α)) : List (String × α) :=
  List.insertionSort (fun a b => goStrLe a.1 b.1 = true) m

/-- `json.MarshalIndent` of a `mdviewerData` value (both struct fields are
always emitted; map keys are sorted; the indentation itself is not
observable at the value level). -/
def encodeMdviewerData (d : MdviewerData) : JVal :=
  .jobj [("tags", .jobj ((sortByKey d.tags).map
            (fun kv => (kv.1, JVal.jarr (kv.2.map JVal.jstr))))),
         ("opened", .jobj ((sortByKey d.opened).map
            (fun kv => (kv.1, JVal.jbool kv.2))))]

/-- Go JSON struct field matching is case-insensitive. -/
def jsonFieldIs (k field : String) : Prop :=
  goToLower k = goToLower field

instance (k field : String) : Decidable (jsonFieldIs k field) := by
  unfold jsonFieldIs; infer_instance

/-- Decode a JSON array element list into Go strings (all elements must be
strings). -/
def decodeStrs : List JVal → Option (List String)
  | [] => some []
  | .jstr s :: rest => (decodeStrs rest).map (fun r => s :: r)
  | _ :: _ => none

/-- Unmarshal a JSON value into a `[]string`: `null` leaves the slice
empty, an array requires every element to be a string. -/
def decodeStrList : JVal → Option (List String)
  | .jnull => some []
  | .jarr xs => decodeStrs xs
  | _ => none

/-- Decode JSON object entries one by one into the `map[string][]string`
currently held in `cur`, as the Go decoder does. -/
def decodeTagEntries (cur : List (String × List String)) :
    List (String × JVal) → Option (List (String × List String))
  | [] => some cur
  | kv :: rest =>
    match decodeStrList kv.2 with
    | some v => decodeTagEntries (mapInsert cur kv.1 v) rest
    | none => none

/-- Unmarshal a JSON value into the `map[string][]string` currently held in
`cur` (`null` leaves the map untouched). -/
def decodeTagsField (cur : List (String × List String)) :
    JVal → Option (List (String × List String))
  | .jnull => some cur
  | .jobj fs => decodeTagEntries cur fs
  | _ => none

/-- Decode JSON object entries one by one into the `map[string]bool`
currently held in `cur`. -/
def decodeOpenedEntries (cur : List (String × Bool)) :
    List (String × JVal) → Option (List (String × Bool))
  | [] => some cur
  | kv :: rest =>
    match kv.2 with
    | .jbool b => decodeOpenedEntries (mapInsert cur kv.1 b) rest
    | _ => none

/-- Unmarshal a JSON value into the `map[string]bool` currently held in
`cur`. -/
def decodeOpenedField (cur : List (String × Bool)) :
    JVal → Option (List (String × Bool))
  | .jnull => some cur
  | .jobj fs => decodeOpenedEntries cur fs
  | _ => none

/-- Unmarshal into `mdviewerData`: Go's decoder walks the object fields in
order, decoding matching fields and skipping unknown ones; a field whose
value has the wrong shape is recorded as an error while the remaining
fields are still decoded (`encoding/json` keeps the first error but
continues).  The Bool result is `true` when no error occurred. -/
def decodeMdviewerData : JVal → MdviewerData × Bool
  | .jnull => (⟨[], []⟩, true)
  | .jobj fields =>
    fields.foldl (fun (st : MdviewerData × Bool) kv =>
      if jsonFieldIs kv.1 "tags" then
        match decodeTagsField st.1.tags kv.2 with
        | some t => ({ st.1 with tags := t }, st.2)
        | none => (st.1, false)
      else if jsonFieldIs kv.1 "opened" then
        match decodeOpenedField st.1.opened kv.2 with
        | some o => ({ st.1 with opened := o }, st.2)
        | none => (st.1, false)
      else st) (⟨[], []⟩, true)
  | _ => (⟨[], []⟩, false)

/-- Decode JSON object entries into the legacy `map[string]string`. -/
def decodeLegacyEntries (cur : List (String × String)) :
    List (String × JVal) → Option (List (String × String))
  | [] => some cur
  | kv :: rest =>
    match kv.2 with
    | .jstr s => decodeLegacyEntries (mapInsert cur kv.1 s) rest
    | _ => none

/-- Unmarshal into the legacy `mdviewerDataLegacy` struct.  The outer
`Option` is `err2 == nil`; the inner one distinguishes a `nil` Tags map
(no `tags` field seen) from a decoded one, which the caller tests with
`legacy.Tags != nil`. -/
def decodeLegacyTags : JVal → Option (Option (List (String × String)))
  | .jnull => some none
  | .jobj fields =>
    fields.foldlM (fun (cur : Option (List (String × String))) kv =>
      if jsonFieldIs kv.1 "tags" then
        match kv.2 with
        | .jnull => some cur
        | .jobj fs =>
          (decodeLegacyEntries (cur.getD []) fs).map some
        | _ => none
      else some cur) none
  | _ => none

/-- The in-memory migration loop of `readMdviewerFile`: each non-empty
legacy tag becomes a one-element list (iteration order of the Go map is
modelled by the entry order). -/
def legacyConvert (l : List (String × String)) : List (String × List String) :=
  l.foldl (fun acc kv => if kv.2 ≠ "" then mapInsert acc kv.1 [kv.2] else acc) []

/-- Embedding of `readMdviewerFile` from main.go.  A missing file yields
empty maps and no error; a file that fails the current schema is retried
against the legacy schema (the `Opened` map keeps whatever the partial
first decode produced, as in Go); if that also fails the function returns
fresh empty maps, swallowing the parse error. -/
def readMdviewerFile (fs : FileStore) (dirPath : String) : MdviewerData × Option String :=
  let fp := goJoin dirPath ".mdviewer"
  match fs fp with
  | none => (⟨[], []⟩, none)
  | some content =>
    match decodeMdviewerData content with
    | (d, true) => (d, none)
    | (d, false) =>
      match decodeLegacyTags content with
      | some (some ltags) => (⟨legacyConvert ltags, d.opened⟩, none)
      | _ => (⟨[], []⟩, none)

/-- Embedding of `writeMdviewerFile` from main.go: empty metadata deletes
the sidecar file (ignoring a removal error), otherwise the JSON encoding
overwrites it.  `MarshalIndent` cannot fail on `mdviewerData`. -/
def writeMdviewerFile (fs : FileStore) (dirPath : String) (d : MdviewerData) :
    FileStore × Option String :=
  let fp := goJoin dirPath ".mdviewer"
  if d.tags.length = 0 ∧ d.opened.length = 0 then (fsRemove fs fp, none)
  else (fsWrite fs fp (encodeMdviewerData d), none)

/-! ### Claims C5, C4 and C7: the sidecar store -/

/-- C5: writing metadata whose tag and opened maps are both empty deletes
the sidecar file — it no longer exists afterwards, with no error reported —
and a subsequent read returns empty tag and opened maps with no error. -/
theorem C5_write_empty_deletes_sidecar (fs : FileStore) (dir : String) :
    (writeMdviewerFile fs dir ⟨[], []⟩).1 (goJoin dir ".mdviewer") = none ∧
    (writeMdviewerFile fs dir ⟨[], []⟩).2 = none ∧
    readMdviewerFile (writeMdviewerFile fs dir ⟨[], []⟩).1 dir = (⟨[], []⟩, none) := by
  have hw : writeMdviewerFile fs dir ⟨[], []⟩ =
      (fsRemove fs (goJoin dir ".mdviewer"), none) := by
    unfold writeMdviewerFile
    rw [if_pos ⟨rfl, rfl⟩]
  have h1 : (fsRemove fs (goJoin dir ".mdviewer")) (goJoin dir ".mdviewer") = none := by
    unfold fsRemove
    rw [if_pos rfl]
  refine ⟨by rw [hw]; exact h1, by rw [hw], ?_⟩
  rw [hw]
  show readMdviewerFile (fsRemove fs (goJoin dir ".mdviewer")) dir = (⟨[], []⟩, none)
  simp only [readMdviewerFile]
  rw [h1]

theorem mapInsert_fresh {α : Type} (m : List (String × α)) (k : String) (v : α)
    (h : ∀ kv ∈ m, kv.1 ≠ k) : mapInsert m k v = m ++ [(k, v)] := by
  unfold mapInsert
  rw [if_neg ?hcond]
  case hcond =>
    intro hany
    rw [List.any_eq_true] at hany
    obtain ⟨kv, hkv, heq⟩ := hany
    exact h kv hkv (of_decide_eq_true heq)

theorem decodeStrs_encode (v : List String) :
    decodeStrs (v.map JVal.jstr) = some v := by
  induction v with
  | nil => rfl
  | cons s rest ih => simp [decodeStrs, ih]

theorem decodeTagEntries_encode (l : List (String × List String)) :
    ∀ cur : List (String × List String),
      (∀ k ∈ l.map Prod.fst, ∀ kv ∈ cur, kv.1 ≠ k) → (l.map Prod.fst).Nodup →
      decodeTagEntries cur (l.map (fun kv => (kv.1, JVal.jarr (kv.2.map JVal.jstr)))) =
        some (cur ++ l) := by
  induction l with
  | nil => intro cur _ _; simp [decodeTagEntries]
  | cons kv rest ih =>
    intro cur hfresh hnodup
    obtain ⟨k, v⟩ := kv
    simp only [List.map_cons, decodeTagEntries, decodeStrList, decodeStrs_encode]
    rw [mapInsert_fresh cur k v (hfresh k (by simp))]
    rw [ih (cur ++ [(k, v)]) ?hfresh2 ?hnodup2]
    · simp
    case hfresh2 =>
      intro k2 hk2 kv2 hkv2
      rcases List.mem_append.mp hkv2 with hmem | hmem
      · exact hfresh k2 (by simp [hk2]) kv2 hmem
      · have hkv : kv2 = (k, v) := by simpa using hmem
        rw [hkv]
        show k ≠ k2
        intro he
        rw [List.map_cons, List.nodup_cons] at hnodup
        exact hnodup.1 (by rw [he]; exact hk2)
    case hnodup2 =>
      rw [List.map_cons, List.nodup_cons] at hnodup
      exact hnodup.2

theorem decodeOpenedEntries_encode (l : List (String × Bool)) :
    ∀ cur : List (String × Bool),
      (∀ k ∈ l.map Prod.fst, ∀ kv ∈ cur, kv.1 ≠ k) → (l.map Prod.fst).Nodup →
      decodeOpenedEntries cur (l.map (fun kv => (kv.1, JVal.jbool kv.2))) =
        some (cur ++ l) := by
  induction l with
  | nil => intro cur _ _; simp [decodeOpenedEntries]
  | cons kv rest ih =>
    intro cur hfresh hnodup
    obtain ⟨k, v⟩ := kv
    simp only [List.map_cons, decodeOpenedEntries]
    rw [mapInsert_fresh cur k v (hfresh k (by simp))]
    rw [ih (cur ++ [(k, v)]) ?hfresh2 ?hnodup2]
    · simp
    case hfresh2 =>
      intro k2 hk2 kv2 hkv2
      rcases List.mem_append.mp hkv2 with hmem | hmem
      · exact hfresh k2 (by simp [hk2]) kv2 hmem
      · have hkv : kv2 = (k, v) := by simpa using hmem
        rw [hkv]
        show k ≠ k2
        intro he
        rw [List.map_cons, List.nodup_cons] at hnodup
        exact hnodup.1 (by rw [he]; exact hk2)
    case hnodup2 =>
      rw [List.map_cons, List.nodup_cons] at hnodup
      exact hnodup.2

theorem sortByKey_keys_nodup {α : Type} (m : List (String × α))
    (h : (m.map Prod.fst).Nodup) : ((sortByKey m).map Prod.fst).Nodup := by
  have hperm : (sortByKey m).Perm m := List.perm_insertionSort _ m
  exact ((hperm.map Prod.fst).nodup_iff).mpr h

theorem readMdviewerFile_of_content (fs : FileStore) (dir : String) (j : JVal)
    (hfs : fs (goJoin dir ".mdviewer") = some j) :
    readMdviewerFile fs dir =
      (match decodeMdviewerData j with
       | (d, true) => (d, none)
       | (d, false) =>
         match decodeLegacyTags j with
         | some (some ltags) => (⟨legacyConvert ltags, d.opened⟩, none)
         | _ => (⟨[], []⟩, none)) := by
  simp only [readMdviewerFile]
  rw [hfs]

theorem decodeMdviewerData_jobj2_ok (Jt Jo : JVal) (t : List (String × List String))
    (o : List (String × Bool)) (ht : decodeTagsField [] Jt = some t)
    (ho : decodeOpenedField [] Jo = some o) :
    decodeMdviewerData (.jobj [("tags", Jt), ("opened", Jo)]) = (⟨t, o⟩, true) := by
  simp only [decodeMdviewerData, List.foldl_cons, List.foldl_nil,
    show jsonFieldIs "tags" "tags" from rfl,
    show jsonFieldIs "opened" "opened" from rfl,
    show ¬ jsonFieldIs "opened" "tags" from by decide,
    if_true, if_false, ite_true, ite_false, ht, ho]

theorem decodeMdviewerData_encode (d : MdviewerData)
    (htnodup : (d.tags.map Prod.fst).Nodup) (hopnodup : (d.opened.map Prod.fst).Nodup) :
    decodeMdviewerData (encodeMdviewerData d) =
      (⟨sortByKey d.tags, sortByKey d.opened⟩, true) := by
  have h1 : decodeTagsField []
      (.jobj ((sortByKey d.tags).map (fun kv => (kv.1, JVal.jarr (kv.2.map JVal.jstr)))))
      = some (sortByKey d.tags) := by
    show decodeTagEntries []
      ((sortByKey d.tags).map (fun kv => (kv.1, JVal.jarr (kv.2.map JVal.jstr)))) =
      some (sortByKey d.tags)
    rw [decodeTagEntries_encode (sortByKey d.tags) [] (by simp)
      (sortByKey_keys_nodup d.tags htnodup)]
    simp
  have h2 : decodeOpenedField []
      (.jobj ((sortByKey d.opened).map (fun kv => (kv.1, JVal.jbool kv.2))))
      = some (sortByKey d.opened) := by
    show decodeOpenedEntries []
      ((sortByKey d.opened).map (fun kv => (kv.1, JVal.jbool kv.2))) =
      some (sortByKey d.opened)
    rw [decodeOpenedEntries_encode (sortByKey d.opened) [] (by simp)
      (sortByKey_keys_nodup d.opened hopnodup)]
    simp
  unfold encodeMdviewerData
  exact decodeMdviewerData_jobj2_ok _ _ _ _ h1 h2

/-- C4: round trip.  For every directory and metadata value whose maps obey
the Go map invariant (distinct keys), are not both empty, and store only
non-empty tag sequences, writing the metadata and reading it back yields no
error and a value equal to the input as a Go map: the association lists are
permutations of the originals (Go re-serializes map keys in sorted order,
so only the unobservable entry order can differ). -/
theorem C4_write_read_roundtrip (fs : FileStore) (dir : String) (d : MdviewerData)
    (hne : ¬ (d.tags = [] ∧ d.opened = []))
    (htnodup : (d.tags.map Prod.fst).Nodup) (hopnodup : (d.opened.map Prod.fst).Nodup)
    (htagsne : ∀ kv ∈ d.tags, kv.2 ≠ []) :
    ∃ d2, readMdviewerFile (writeMdviewerFile fs dir d).1 dir = (d2, none) ∧
      d2.tags.Perm d.tags ∧ d2.opened.Perm d.opened ∧
      (writeMdviewerFile fs dir d).2 = none := by
  have hw : writeMdviewerFile fs dir d =
      (fsWrite fs (goJoin dir ".mdviewer") (encodeMdviewerData d), none) := by
    unfold writeMdviewerFile
    rw [if_neg ?hc]
    case hc =>
      intro ⟨h1, h2⟩
      exact hne ⟨List.length_eq_zero.mp h1, List.length_eq_zero.mp h2⟩
  refine ⟨⟨sortByKey d.tags, sortByKey d.opened⟩, ?_, List.perm_insertionSort _ d.tags,
    List.perm_insertionSort _ d.opened, by rw [hw]⟩
  rw [hw]
  show readMdviewerFile (fsWrite fs (goJoin dir ".mdviewer") (encodeMdviewerData d)) dir =
    (⟨sortByKey d.tags, sortByKey d.opened⟩, none)
  rw [readMdviewerFile_of_content (fsWrite fs (goJoin dir ".mdviewer") (encodeMdviewerData d))
    dir (encodeMdviewerData d) (by unfold fsWrite; rw [if_pos rfl])]
  rw [decodeMdviewerData_encode d htnodup hopnodup]

/-- C4 witness: the round trip at a concrete store, directory and value. -/
theorem C4_witness :
    (¬ ((⟨[("a.md", ["DONE", "NEXT"])], [("b.md", true)]⟩ : MdviewerData).tags = [] ∧
        (⟨[("a.md", ["DONE", "NEXT"])], [("b.md", true)]⟩ : MdviewerData).opened = [])) ∧
    ∃ d2, readMdviewerFile
        (writeMdviewerFile (fun _ => none) "/r"
          ⟨[("a.md", ["DONE", "NEXT"])], [("b.md", true)]⟩).1 "/r" = (d2, none) ∧
      d2.tags.Perm [("a.md", ["DONE", "NEXT"])] ∧ d2.opened.Perm [("b.md", true)] ∧
      (writeMdviewerFile (fun _ => none) "/r"
        ⟨[("a.md", ["DONE", "NEXT"])], [("b.md", true)]⟩).2 = none :=
  ⟨by simp, C4_write_read_roundtrip (fun _ => none) "/r"
    ⟨[("a.md", ["DONE", "NEXT"])], [("b.md", true)]⟩
    (by simp) (by simp) (by simp) (by simp)⟩

theorem find_map_replace {α : Type} (k : String) (v : α) :
    ∀ m : List (String × α), m.any (fun kv => kv.1 = k) = true →
      mapLookup (m.map (fun kv => if kv.1 = k then (k, v) else kv)) k = some v := by
  intro m
  induction m with
  | nil => intro h; simp at h
  | cons kv rest ih =>
    intro h
    rw [List.map_cons]
    by_cases hk : kv.1 = k
    · rw [if_pos hk]
      unfold mapLookup
      rw [List.find?_cons_of_pos _ (by simp)]
      rfl
    · rw [if_neg hk]
      have h2 : rest.any (fun kv => kv.1 = k) = true := by
        simp only [List.any_cons, Bool.or_eq_true] at h
        rcases h with h | h
        · exact absurd (by simpa using h) hk
        · exact h
      unfold mapLookup
      rw [List.find?_cons_of_neg _ (by simpa using hk)]
      exact ih h2

theorem mapLookup_mapInsert_self {α : Type} (m : List (String × α)) (k : String) (v : α) :
    mapLookup (mapInsert m k v) k = some v := by
  unfold mapInsert
  by_cases hany : m.any (fun kv => kv.1 = k) = true
  · rw [if_pos hany]
    exact find_map_replace k v m hany
  · rw [if_neg hany]
    unfold mapLookup
    rw [List.find?_append]
    have h1 : m.find? (fun kv => decide (kv.1 = k)) = none := by
      rw [List.find?_eq_none]
      intro x hx hpx
      exact hany (List.any_eq_true.mpr ⟨x, hx, hpx⟩)
    rw [h1]
    simp

theorem mapLookup_mapInsert_other {α : Type} (m : List (String × α)) (k k2 : String)
    (v : α) (hne : k2 ≠ k) : mapLookup (mapInsert m k v) k2 = mapLookup m k2 := by
  unfold mapInsert
  by_cases hany : m.any (fun kv => kv.1 = k) = true
  · rw [if_pos hany]
    clear hany
    induction m with
    | nil => rfl
    | cons kv rest ih =>
      rw [List.map_cons]
      by_cases hk : kv.1 = k
      · rw [if_pos hk]
        have hp1 : ¬ (((k, v) : String × α).1 = k2) := fun h => hne h.symm
        have hp2 : ¬ (kv.1 = k2) := by rw [hk]; exact fun h => hne h.symm
        unfold mapLookup
        rw [List.find?_cons_of_neg _ (by simpa using hp1),
          List.find?_cons_of_neg _ (by simpa using hp2)]
        exact ih
      · rw [if_neg hk]
        by_cases hk2 : kv.1 = k2
        · unfold mapLookup
          rw [List.find?_cons_of_pos _ (by simpa using hk2),
            List.find?_cons_of_pos _ (by simpa using hk2)]
        · unfold mapLookup
          rw [List.find?_cons_of_neg _ (by simpa using hk2),
            List.find?_cons_of_neg _ (by simpa using hk2)]
          exact ih
  · rw [if_neg hany]
    unfold mapLookup
    rw [List.find?_append]
    have h1 : ([((k, v) : String × α)].find? (fun kv => decide (kv.1 = k2))) = none := by
      rw [List.find?_eq_none]
      intro x hx hpx
      have hxk : x = (k, v) := by simpa using hx
      have : k = k2 := by rw [hxk] at hpx; simpa using hpx
      exact hne this.symm
    rw [h1, Option.or_none]

theorem legacyConvert_fold_lookup (l : List (String × String)) :
    ∀ (acc : List (String × List String)) (k : String), (l.map Prod.fst).Nodup →
      mapLookup (l.foldl (fun acc kv =>
          if kv.2 ≠ "" then mapInsert acc kv.1 [kv.2] else acc) acc) k =
        (match mapLookup l k with
         | some v => if v = "" then mapLookup acc k else some [v]
         | none => mapLookup acc k) := by
  induction l with
  | nil => intro acc k h; rfl
  | cons kv0 rest ih =>
    intro acc k hnodup
    rw [List.map_cons, List.nodup_cons] at hnodup
    obtain ⟨hk0, hrest⟩ := hnodup
    rw [List.foldl_cons, ih _ k hrest]
    by_cases hkk : kv0.1 = k
    · have hr : mapLookup rest k = none := by
        have hfind : rest.find? (fun kv => decide (kv.1 = k)) = none := by
          rw [List.find?_eq_none]
          intro x hx hpx
          apply hk0
          have hx1 : x.1 = k := by simpa using hpx
          exact List.mem_map.mpr ⟨x, hx, by rw [hx1, ← hkk]⟩
        unfold mapLookup
        rw [hfind]
        rfl
      have hlk : mapLookup (kv0 :: rest) k = some kv0.2 := by
        unfold mapLookup
        rw [List.find?_cons_of_pos _ (by simpa using hkk)]
        rfl
      simp only [hr, hlk]
      by_cases hv : kv0.2 = ""
      · rw [if_neg (fun h => h hv), if_pos hv]
      · rw [if_pos (show kv0.2 ≠ "" from hv), if_neg hv, hkk]
        exact mapLookup_mapInsert_self acc k [kv0.2]
    · have hlk : mapLookup (kv0 :: rest) k = mapLookup rest k := by
        unfold mapLookup
        rw [List.find?_cons_of_neg _ (by simpa using hkk)]
      rw [hlk]
      have hacc : mapLookup (if kv0.2 ≠ "" then mapInsert acc kv0.1 [kv0.2] else acc) k =
          mapLookup acc k := by
        by_cases hv : kv0.2 = ""
        · rw [if_neg (fun h => h hv)]
        · rw [if_pos (show kv0.2 ≠ "" from hv)]
          exact mapLookup_mapInsert_other acc kv0.1 k [kv0.2] (fun h => hkk h.symm)
      rw [hacc]

/-- C7: for every sidecar file in the legacy single-tag-string schema — any
content that fails the current schema and legacy-decodes to a tag map
`ltags` (with the distinct keys every Go map has) — `readMdviewerFile`
returns no error and its tag map is exactly the migrated multi-tag form:
every key whose legacy tag `v` is non-empty maps to the one-element list
containing `v`, keys with an empty legacy tag are dropped, and no other
keys appear.  The migration happens only in memory: `readMdviewerFile`
takes the store as a value and returns no store, so it cannot modify the
file on disk.  And when the content parses as neither the current nor the
legacy schema, the read returns empty maps with no error. -/
theorem C7_legacy_migration_and_lenient_parse :
    (∀ fs dir j ltags, fs (goJoin dir ".mdviewer") = some j →
      (decodeMdviewerData j).2 = false →
      decodeLegacyTags j = some (some ltags) →
      (ltags.map Prod.fst).Nodup →
      (readMdviewerFile fs dir).2 = none ∧
      ∀ k, mapLookup (readMdviewerFile fs dir).1.tags k =
        (match mapLookup ltags k with
         | some v => if v = "" then none else some [v]
         | none => none)) ∧
    (∀ fs dir j, fs (goJoin dir ".mdviewer") = some j →
      (decodeMdviewerData j).2 = false →
      (decodeLegacyTags j = none ∨ decodeLegacyTags j = some none) →
      readMdviewerFile fs dir = (⟨[], []⟩, none)) := by
  constructor
  · intro fs dir j ltags hfs hfail hleg hnodup
    have hread : readMdviewerFile fs dir =
        (⟨legacyConvert ltags, (decodeMdviewerData j).1.opened⟩, none) := by
      rw [readMdviewerFile_of_content fs dir j hfs]
      rcases hdec : decodeMdviewerData j with ⟨d, b⟩
      have hb : b = false := by rw [hdec] at hfail; exact hfail
      subst hb
      simp only [hleg]
    refine ⟨by rw [hread], ?_⟩
    intro k
    rw [hread]
    show mapLookup (legacyConvert ltags) k = _
    simp only [legacyConvert]
    rw [legacyConvert_fold_lookup ltags [] k hnodup]
    rcases hmk : mapLookup ltags k with _ | v
    · simp only [hmk]
      rfl
    · simp only [hmk]
      by_cases hv : v = ""
      · rw [if_pos hv, if_pos hv]
        rfl
      · rw [if_neg hv, if_neg hv]
  · intro fs dir j hfs hfail hleg
    rw [readMdviewerFile_of_content fs dir j hfs]
    rcases hdec : decodeMdviewerData j with ⟨d, b⟩
    have hb : b = false := by rw [hdec] at hfail; exact hfail
    subst hb
    rcases hleg with hl | hl <;> rw [hl]

/-- The store used to witness C7: a legacy sidecar file holding one
non-empty and one empty single-string tag. -/
def C7fs : FileStore := fun p =>
  if p = "/n/.mdviewer" then
    some (.jobj [("tags", .jobj [("a.md", .jstr "NEXT"), ("b.md", .jstr "")])])
  else none

/-- C7 witness: the migration law applied to a concrete legacy sidecar
(the non-empty tag is wrapped, the empty one is dropped), and the lenient
fallback applied to an unparseable one. -/
theorem C7_witness :
    ((readMdviewerFile C7fs "/n").2 = none ∧
      mapLookup (readMdviewerFile C7fs "/n").1.tags "a.md" = some ["NEXT"] ∧
      mapLookup (readMdviewerFile C7fs "/n").1.tags "b.md" = none) ∧
    ((decodeMdviewerData (JVal.jnum 3)).2 = false ∧
      readMdviewerFile (fun p => if p = "/d/.mdviewer" then some (JVal.jnum 3) else none)
        "/d" = (⟨[], []⟩, none)) := by
  constructor
  · have h := C7_legacy_migration_and_lenient_parse.1 C7fs "/n"
      (JVal.jobj [("tags", JVal.jobj [("a.md", JVal.jstr "NEXT"), ("b.md", JVal.jstr "")])])
      [("a.md", "NEXT"), ("b.md", "")] rfl rfl rfl (by decide)
    refine ⟨h.1, ?_, ?_⟩
    · rw [h.2 "a.md"]
      rfl
    · rw [h.2 "b.md"]
      rfl
  · exact ⟨rfl, C7_legacy_migration_and_lenient_parse.2
      (fun p => if p = "/d/.mdviewer" then some (JVal.jnum 3) else none) "/d"
      (JVal.jnum 3) rfl rfl (Or.inl rfl)⟩

/-! ### Claim C10: the tag aggregation -/

/-- The `allTagsResult` struct of main.go. -/
structure AllTagsResult : Type where
  tags : List (String × List String)
  opened : List (String × Bool)
  deriving DecidableEq

/-- The walk callback of `collectAllTags` from main.go, run over the walk
sequence: only files named `.mdviewer` are considered, read errors and
`filepath.Rel` errors skip the directory, every file name is re-keyed to a
root-relative path, and only opened entries that are `true` are copied into
the aggregate. -/
def collectAllTagsAux (root : String) (fs : FileStore) :
    List (String × String × Bool) → AllTagsResult → AllTagsResult
  | [], acc => acc
  | (path, name, isDir) :: rest, acc =>
    if isDir ∨ name ≠ ".mdviewer" then collectAllTagsAux root fs rest acc
    else
      let dirPath := goDir path
      match (readMdviewerFile fs dirPath).2 with
      | some _ => collectAllTagsAux root fs rest acc
      | none =>
        let data := (readMdviewerFile fs dirPath).1
        match goRel root dirPath with
        | .error _ => collectAllTagsAux root fs rest acc
        | .ok relDir =>
          let acc1 := data.tags.foldl (fun (a : AllTagsResult) kv =>
            { a with tags := (mapInsert a.tags
                (if relDir = "." then kv.1 else toSlash (goJoin relDir kv.1)) kv.2) }) acc
          let acc2 := data.opened.foldl (fun (a : AllTagsResult) kv =>
            if kv.2 then
              { a with opened := (mapInsert a.opened
                  (if relDir = "." then kv.1 else toSlash (goJoin relDir kv.1)) true) }
            else a) acc1
          collectAllTagsAux root fs rest acc2

/-- Embedding of `collectAllTags` from main.go (the callback always returns
nil, so the walk itself reports no error). -/
def collectAllTags (root : String) (tree : FSEntry) (fs : FileStore) :
    AllTagsResult × Option String :=
  (collectAllTagsAux root fs (walkEntry root tree) ⟨[], []⟩, none)

theorem mapInsert_true_all_true (m : List (String × Bool)) (k : String)
    (h : ∀ kv ∈ m, kv.2 = true) :
    ∀ kv ∈ mapInsert m k true, kv.2 = true := by
  intro kv hkv
  unfold mapInsert at hkv
  split at hkv
  · obtain ⟨kv0, hkv0, heq⟩ := List.mem_map.mp hkv
    by_cases hk : kv0.1 = k
    · rw [if_pos hk] at heq
      rw [← heq]
    · rw [if_neg hk] at heq
      rw [← heq]
      exact h kv0 hkv0
  · rcases List.mem_append.mp hkv with hm | hm
    · exact h kv hm
    · simp at hm
      rw [hm]

theorem tags_fold_opened_eq (l : List (String × List String)) (relDir : String) :
    ∀ acc : AllTagsResult,
      (l.foldl (fun (a : AllTagsResult) kv =>
        { a with tags := (mapInsert a.tags
            (if relDir = "." then kv.1 else toSlash (goJoin relDir kv.1)) kv.2) }) acc).opened =
      acc.opened := by
  induction l with
  | nil => intro acc; rfl
  | cons kv rest ih => intro acc; rw [List.foldl_cons, ih]

theorem opened_fold_all_true (l : List (String × Bool)) (relDir : String) :
    ∀ acc : AllTagsResult, (∀ kv ∈ acc.opened, kv.2 = true) →
      ∀ kv ∈ (l.foldl (fun (a : AllTagsResult) kv =>
        if kv.2 then
          { a with opened := (mapInsert a.opened
              (if relDir = "." then kv.1 else toSlash (goJoin relDir kv.1)) true) }
        else a) acc).opened, kv.2 = true := by
  induction l with
  | nil => intro acc hacc; exact hacc
  | cons kv rest ih =>
    intro acc hacc
    rw [List.foldl_cons]
    apply ih
    by_cases hb : kv.2 = true
    · rw [if_pos hb]
      exact mapInsert_true_all_true acc.opened _ hacc
    · rw [if_neg hb]
      exact hacc

theorem collectAllTagsAux_all_true (root : String) (fs : FileStore)
    (entries : List (String × String × Bool)) :
    ∀ acc : AllTagsResult, (∀ kv ∈ acc.opened, kv.2 = true) →
      ∀ kv ∈ (collectAllTagsAux root fs entries acc).opened, kv.2 = true := by
  induction entries with
  | nil => intro acc hacc; exact hacc
  | cons entry rest ih =>
    intro acc hacc
    obtain ⟨path, name, isDir⟩ := entry
    unfold collectAllTagsAux
    split
    · exact ih acc hacc
    · simp only []
      split
      · exact ih acc hacc
      · split
        · exact ih acc hacc
        · apply ih
          apply opened_fold_all_true
          rw [tags_fold_opened_eq]
          exact hacc

/-- C10: in the aggregate returned by `collectAllTags` every value of the
opened map is `true` — entries whose stored flag is `false` are filtered
out during aggregation — even though `readMdviewerFile` itself preserves
`false` entries read from a sidecar file, as the second part shows on a
store whose sidecar holds an explicit `false`. -/
theorem C10_collectAllTags_opened_all_true :
    (∀ root tree fs k b, (k, b) ∈ (collectAllTags root tree fs).1.opened → b = true) ∧
    readMdviewerFile (fun p => if p = "/n/.mdviewer" then
        some (.jobj [("opened", .jobj [("a.md", .jbool false)])]) else none) "/n" =
      (⟨[], [("a.md", false)]⟩, none) := by
  constructor
  · intro root tree fs k b hmem
    exact collectAllTagsAux_all_true root fs (walkEntry root tree) ⟨[], []⟩
      (by intro kv hkv; simp at hkv) (k, b) hmem
  · rfl

/-- C10 witness: the aggregation applied to a concrete tree and store whose
sidecar marks one file opened. -/
theorem C10_witness :
    ("n.md", true) ∈ (collectAllTags "/r" (.dir "r" (.cons (.file ".mdviewer" "") .nil))
      (fun p => if p = "/r/.mdviewer" then
        some (.jobj [("opened", .jobj [("n.md", .jbool true)])]) else none)).1.opened ∧
    true = true :=
  ⟨by decide, C10_collectAllTags_opened_all_true.1 "/r"
    (.dir "r" (.cons (.file ".mdviewer" "") .nil))
    (fun p => if p = "/r/.mdviewer" then
      some (.jobj [("opened", .jobj [("n.md", .jbool true)])]) else none)
    "n.md" true (by decide)⟩

/-! ### Search: `searchFiles` and its context snippet (claim C6) -/

/-- First occurrence of `sub` in a character list, model of the scan done by
Go `strings.Index` (for valid UTF-8 and ASCII queries the byte offset and
the character offset agree). -/
def listIndexOf (sub : List Char) : List Char → Option Nat
  | [] => if chPrefix sub [] = true then some 0 else none
  | c :: rest =>
    if chPrefix sub (c :: rest) = true then some 0
    else (listIndexOf sub rest).map (fun k => k + 1)

/-- Model of Go `strings.Index s sub`: the first index, or `-1`. -/
def goIndex (s sub : String) : Int :=
  match listIndexOf sub.data s.data with
  | some k => (k : Int)
  | none => -1

/-- Model of Go `strings.ReplaceAll s a b` for a single-character pattern
and replacement, as used on the snippet (the newline-to-space pass). -/
def goReplaceChar (s : String) (a b : Char) : String :=
  String.mk (s.data.map (fun c => if c = a then b else c))

/-- Model of Go `strings.ReplaceAll s a ""` for a single-character pattern,
as used on the snippet (the carriage-return removal pass). -/
def goRemoveChar (s : String) (a : Char) : String :=
  String.mk (s.data.filter (fun c => c ≠ a))

/-- The two snippet clean-up passes of `searchFiles` from main.go: newlines
become spaces, carriage returns are dropped. -/
def cleanSnippet (s : String) : String :=
  goRemoveChar (goReplaceChar s '\n' ' ') '\r'

/-- The per-file snippet logic of `searchFiles` from main.go: lower-case
both sides, find the first match, cut a window of 60 characters each side
clamped to the content bounds, clean it up, and mark truncation with an
ellipsis on the truncated side; `none` when the query does not occur. -/
def searchSnippet (query text : String) : Option String :=
  let idx := goIndex (goToLower text) (goToLower query)
  if idx < 0 then none
  else
    let contextStart : Int := if idx - 60 < 0 then 0 else idx - 60
    let contextEnd : Int :=
      if (text.length : Int) < idx + query.length + 60 then (text.length : Int)
      else idx + query.length + 60
    let snippet := String.mk ((text.data.take contextEnd.toNat).drop contextStart.toNat)
    let snippet := cleanSnippet snippet
    let pre := if 0 < contextStart then "…" else ""
    let suf := if contextEnd < (text.length : Int) then "…" else ""
    some (pre ++ snippet ++ suf)

mutual
/-- The walk callback of `searchFiles` from main.go over the tree model:
directories and non-markdown names are skipped, a file with no match or
with a `filepath.Rel` error contributes nothing, and a matching file
contributes its slash-normalized relative path with the context snippet. -/
def searchEntry (root query : String) : String → FSEntry → List (String × String)
  | path, .file n content =>
    if !isMarkdownFile n then []
    else
      match searchSnippet query content with
      | none => []
      | some ctx =>
        match goRel root path with
        | .error _ => []
        | .ok rel => [(toSlash rel, ctx)]
  | _, .dir _ cs => searchList root query cs
def searchList (root query : String) : FSList → List (String × String)
  | .nil => []
  | .cons e rest =>
    searchEntry root query (goJoin root (entryName e)) e ++ searchList root query rest
end

/-- Embedding of `searchFiles` from main.go: collect the per-file results
over the walk and sort them by path. -/
def searchFiles (root query : String) (tree : FSEntry) : List (String × String) :=
  sortByKey (searchEntry root query root tree)

theorem chPrefix_append_self (l t : List Char) : chPrefix l (l ++ t) = true := by
  induction l with
  | nil => rfl
  | cons c cs ih => simp [chPrefix, ih]

theorem listIndexOf_self_append (sub B : List Char) :
    listIndexOf sub (sub ++ B) = some 0 := by
  cases sub with
  | nil =>
    cases B with
    | nil => rfl
    | cons b bs => rfl
  | cons c cs =>
    show (if chPrefix (c :: cs) (c :: cs ++ B) = true then some 0
      else (listIndexOf (c :: cs) (cs ++ B)).map (fun k => k + 1)) = some 0
    rw [show c :: cs ++ B = (c :: cs) ++ B from rfl, chPrefix_append_self]
    simp

theorem listIndexOf_append_ne_none (sub B : List Char) :
    ∀ A, listIndexOf sub (A ++ (sub ++ B)) ≠ none := by
  intro A
  induction A with
  | nil => rw [List.nil_append, listIndexOf_self_append]; simp
  | cons c cs ih =>
    rw [List.cons_append]
    show (if chPrefix sub (c :: (cs ++ (sub ++ B))) = true then some 0
      else (listIndexOf sub (cs ++ (sub ++ B))).map (fun k => k + 1)) ≠ none
    by_cases h : chPrefix sub (c :: (cs ++ (sub ++ B))) = true
    · rw [if_pos h]; simp
    · rw [if_neg h]
      intro hc
      rcases ho : listIndexOf sub (cs ++ (sub ++ B)) with _ | k
      · exact ih ho
      · rw [ho] at hc; simp at hc

theorem cleanSnippet_append (l m : List Char) :
    cleanSnippet (String.mk (l ++ m)) =
      String.mk ((cleanSnippet (String.mk l)).data ++ (cleanSnippet (String.mk m)).data) := by
  simp [cleanSnippet, goRemoveChar, goReplaceChar, data_mk, List.map_append,
    List.filter_append]

theorem take_add_split {α : Type} (x : List α) (a b : Nat) :
    x.take (a + b) = x.take a ++ (x.drop a).take b := by
  rw [List.take_drop]
  have h1 : x.take a = (x.take (a + b)).take a := by
    rw [List.take_take]
    congr 1
    omega
  rw [h1, List.take_append_drop]

/-- C6: when the case-insensitive first match of the query sits more than 60
characters from both ends of the content, the snippet `searchFiles` builds
for that file (via `searchSnippet`) is exactly the 60-characters-each-side
window around the match, cleaned of newlines and carriage returns, marked
with an ellipsis on both sides; and the cleaned matched substring occurs
inside that cleaned window. -/
theorem C6_search_context_window (query text : String) (n : Nat)
    (hidx : goIndex (goToLower text) (goToLower query) = (n : Int))
    (hlo : 60 < n)
    (hhi : n + query.length + 60 < text.length) :
    searchSnippet query text =
      some ("…" ++ cleanSnippet (String.mk
        ((text.data.drop (n - 60)).take (query.length + 120))) ++ "…") ∧
    listIndexOf (cleanSnippet (String.mk ((text.data.drop n).take query.length))).data
      (cleanSnippet (String.mk ((text.data.drop (n - 60)).take (query.length + 120)))).data
      ≠ none := by
  have hne : ¬ ((n : Int) < 0) := by omega
  have hcs : ¬ ((n : Int) - 60 < 0) := by omega
  have hce : ¬ ((text.length : Int) < (n : Int) + (query.length : Int) + 60) := by omega
  have hpre : (0 : Int) < (n : Int) - 60 := by omega
  have hsuf : (n : Int) + (query.length : Int) + 60 < (text.length : Int) := by omega
  have htn1 : ((n : Int) - 60).toNat = n - 60 := by omega
  have htn2 : ((n : Int) + (query.length : Int) + 60).toNat = n + query.length + 60 := by
    omega
  have hdt : (text.data.take (n + query.length + 60)).drop (n - 60) =
      (text.data.drop (n - 60)).take (query.length + 120) := by
    have harith : n + query.length + 60 = n - 60 + (query.length + 120) := by omega
    rw [harith, List.take_drop]
  have hwin : (text.data.drop (n - 60)).take (query.length + 120) =
      ((text.data.drop (n - 60)).take 60) ++
        (((text.data.drop n).take query.length) ++
          ((text.data.drop (n + query.length)).take 60)) := by
    have h1 : query.length + 120 = 60 + (query.length + 60) := by omega
    rw [h1, take_add_split]
    congr 1
    rw [List.drop_drop]
    have h2 : n - 60 + 60 = n := by omega
    rw [h2, take_add_split, List.drop_drop]
  constructor
  · simp only [searchSnippet]
    rw [hidx, if_neg hne, if_neg hcs, if_neg hce, if_pos hpre, if_pos hsuf, htn1, htn2,
      hdt]
  · rw [hwin, cleanSnippet_append, cleanSnippet_append, data_mk, data_mk]
    exact listIndexOf_append_ne_none _ _ _

/-- The content used to exercise the search window: 65 characters, the
(differently-cased) query, 65 more characters. -/
def C6text : String :=
  String.mk (List.replicate 65 'a' ++ "HELLO".data ++ List.replicate 65 'b')

set_option maxRecDepth 20000 in
/-- C6 witness: the context window around a match 65 characters from either
end of the content. -/
theorem C6_witness :
    searchSnippet "HeLLo" C6text =
      some ("…" ++ cleanSnippet (String.mk
        ((C6text.data.drop (65 - 60)).take ("HeLLo".length + 120))) ++ "…") ∧
    listIndexOf (cleanSnippet (String.mk ((C6text.data.drop 65).take "HeLLo".length))).data
      (cleanSnippet (String.mk
        ((C6text.data.drop (65 - 60)).take ("HeLLo".length + 120)))).data ≠ none :=
  C6_search_context_window "HeLLo" C6text 65 (by decide) (by decide) (by decide)

/-! ### The tag handler `handleSetTag` (claim C8) -/

/-- The `validTags` map of main.go as a membership test. -/
def validTags (t : String) : Bool :=
  decide (t = "DONE" ∨ t = "IN-PROGRESS" ∨ t = "NEXT" ∨ t = "IMPORTANT" ∨
    t = "REVISIT" ∨ t = "ARCHIVE")

/-- The decoded request body of `/api/tag`. -/
structure TagRequest : Type where
  path : String
  tag : String
  action : String
  deriving DecidableEq

/-- Embedding of `handleSetTag` from main.go, from the point where the
request body has been decoded (method and body errors are rejected
before this logic).  Returns the HTTP status and the file store after the
request. -/
def handleSetTag (cwd root : String) (fs : FileStore) (req : TagRequest) :
    Nat × FileStore :=
  match sanitizeRelativePath req.path with
  | .error _ => (400, fs)
  | .ok relPath =>
    if isMarkdownFile relPath = false then (400, fs)
    else
      let action := if req.action = "" then "add" else req.action
      if action ≠ "add" ∧ action ≠ "remove" ∧ action ≠ "clear" then (400, fs)
      else if action ≠ "clear" ∧ req.tag ≠ "" ∧ validTags req.tag = false then (400, fs)
      else
        let dirRel := goDir relPath
        let fileName := goBase relPath
        match secureJoin cwd root dirRel with
        | .error _ => (400, fs)
        | .ok dirAbs =>
          match readMdviewerFile fs dirAbs with
          | (_, some _) => (500, fs)
          | (data, none) =>
            let data :=
              if action = "clear" then
                { data with tags := (mapDelete data.tags fileName) }
              else if action = "remove" then
                match mapLookup data.tags fileName with
                | some tags =>
                  let filtered := tags.filter (fun t => t ≠ req.tag)
                  if filtered.length = 0 then
                    { data with tags := (mapDelete data.tags fileName) }
                  else
                    { data with tags := (mapInsert data.tags fileName filtered) }
                | none => data
              else
                if req.tag ≠ "" then
                  let existing := (mapLookup data.tags fileName).getD []
                  if existing.any (fun t => t = req.tag) then data
                  else
                    { data with tags :=
                      (mapInsert data.tags fileName (existing ++ [req.tag])) }
                else data
            match writeMdviewerFile fs dirAbs data with
            | (_, some _) => (500, fs)
            | (fs2, none) => (200, fs2)

/-- The store used to refute C8: the root holds a sidecar tagging `a.md`. -/
def C8fs : FileStore := fun p =>
  if p = "/r/.mdviewer" then
    some (encodeMdviewerData ⟨[("a.md", ["DONE"])], []⟩)
  else none

/-- C8 counterexample: `BOGUS` is not one of the six valid tags, yet a
`clear` request carrying it is answered with HTTP 200 and the stored tag
metadata is changed (the sidecar file is removed): the validity check is
skipped for the `clear` action. -/
theorem C8_counterexample :
    validTags "BOGUS" = false ∧
    (handleSetTag "/" "/r" C8fs ⟨"a.md", "BOGUS", "clear"⟩).1 = 200 ∧
    (handleSetTag "/" "/r" C8fs ⟨"a.md", "BOGUS", "clear"⟩).2 "/r/.mdviewer" = none ∧
    C8fs "/r/.mdviewer" ≠ none := by
  refine ⟨by decide, by rfl, by rfl, by simp [C8fs]⟩

/-- C8 (amended): a request whose tag is non-empty and not one of the six
valid tags, and whose action is not `clear`, is answered with HTTP 400 and
the file store is left unchanged. -/
theorem C8_invalid_tag_rejected (cwd root : String) (fs : FileStore) (req : TagRequest)
    (htag : req.tag ≠ "") (hvalid : validTags req.tag = false)
    (haction : req.action ≠ "clear") :
    handleSetTag cwd root fs req = (400, fs) := by
  simp only [handleSetTag]
  split
  · rfl
  · split
    · rfl
    · by_cases he : req.action = ""
      · rw [if_pos he]
        split
        · rfl
        · split
          · rfl
          · next hcond =>
            exfalso
            exact hcond ⟨by decide, htag, hvalid⟩
      · rw [if_neg he]
        split
        · rfl
        · split
          · rfl
          · next hcond =>
            exfalso
            exact hcond ⟨haction, htag, hvalid⟩

/-- C8 witness: a concrete `add` request with an unknown tag on an empty
store is rejected with HTTP 400 and the store is returned unchanged. -/
theorem C8_witness :
    ("BOGUS" : String) ≠ "" ∧ validTags "BOGUS" = false ∧ ("add" : String) ≠ "clear" ∧
    handleSetTag "/" "/r" (fun _ => none) ⟨"a.md", "BOGUS", "add"⟩ =
      (400, fun _ => none) :=
  ⟨by decide, by decide, by decide,
    C8_invalid_tag_rejected "/" "/r" (fun _ => none) ⟨"a.md", "BOGUS", "add"⟩
      (by decide) (by decide) (by decide)⟩
